import Mathlib

/-!
Verification of the synthetic catalog generator (`src/seeding/seed.js`) and the
CSV serializer (`src/seeding/csv_writer.js`).

Shallow embedding conventions:
* The injected random source `rng` (JS `Math.random` / `seedrandom`) is a stream
  `rand : ℕ → ℚ` of rational values, consumed in call order; its contract is
  that all values lie in `[0,1)`.
* The faker library (seeded by `faker.seed`) is a stream `fake : ℕ → String`
  of candidate strings, one per faker call, consumed in call order.  The
  whitespace-normalisation / capitalisation of names is abstracted away (no
  claim depends on it); the `slice` truncations are kept as `String.take`.
* `uuidv7()` is a stream `uuid : ℕ → String`, consumed in call order.  It is a
  separate stream because the uuid library draws from time/crypto sources that
  the seeding of `Math.random` and faker does not control.
* JS numbers are embedded as exact rationals `ℚ`; `Math.floor` is `Int.floor`
  and `Math.round` is `⌊x + 1/2⌋` (their behaviour on the values reached here).
* The `while`-loops that retry until a fresh name / EAN / (name, url) pair is
  found are given explicit fuel; `none` means the fuel bound was exhausted,
  i.e. the JS loop has not terminated within that many iterations.
-/

section

attribute [local semireducible] Rat.mul Rat.add Rat.sub Rat.ofScientific Rat.inv

/-- The three pseudo-random sources consumed by `generateData`. -/
structure Streams where
  rand : ℕ → ℚ
  fake : ℕ → String
  uuid : ℕ → String

/-- Consumption state: the index of the next unread value of each stream. -/
structure St where
  r : ℕ
  f : ℕ
  u : ℕ
deriving DecidableEq

/-- Draw the next value of the injected random source (`rng()`). -/
def nextRand (S : Streams) (st : St) : ℚ × St :=
  (S.rand st.r, ⟨st.r + 1, st.f, st.u⟩)

/-- Draw the next faker-generated string. -/
def nextFake (S : Streams) (st : St) : String × St :=
  (S.fake st.f, ⟨st.r, st.f + 1, st.u⟩)

/-- Draw the next uuid (`uuidv7()`). -/
def nextUuid (S : Streams) (st : St) : String × St :=
  (S.uuid st.u, ⟨st.r, st.f, st.u + 1⟩)

/-- JS `Math.floor` on an exact rational (`Rat.floor`, which computes). -/
def jsFloor (q : ℚ) : ℤ := q.floor

/-- JS `Math.round` on an exact rational: round half toward positive infinity. -/
def jsRound (q : ℚ) : ℤ := (q + 1/2).floor

/-- `Math.round(x * 100) / 100`: round to two decimal places. -/
def round2 (q : ℚ) : ℚ := (jsRound (q * 100) : ℚ) / 100

/-- JS array indexing `l[k]`: `undefined` (here `none`) when out of range. -/
def listGetJS {α : Type} (l : List α) (k : ℤ) : Option α :=
  if h : 0 ≤ k ∧ k.toNat < l.length then some (l.get ⟨k.toNat, h.2⟩) else none

/-- `{id, name}` rows of `pc_product_categories`. -/
structure Category where
  id : String
  name : String
deriving DecidableEq

/-- `{id, category_id, ean, name, retailPrice}` rows of `p_products`. -/
structure Product where
  id : String
  category_id : String
  ean : String
  name : String
  retailPrice : ℚ
deriving DecidableEq

/-- `{id, name, url}` rows of `s_stores`. -/
structure Store where
  id : String
  name : String
  url : String
deriving DecidableEq

/-- `{store_id, product_id, price, amount}` rows of `o_offers`. -/
structure Offer where
  store_id : String
  product_id : String
  price : ℚ
  amount : ℤ
deriving DecidableEq

/-- The `[s.id, p.id, p.retailPrice]` triples pushed onto `allPairs`. -/
abbrev PairEntry : Type := String × String × ℚ

/-- The `(storeId, productId)` pair of an offer. -/
def pairOf (o : Offer) : String × String := (o.store_id, o.product_id)

/-- The 12 digit values `ean13` draws when the random cursor stands at `a`:
`Array.from({length: 12}, () => Math.floor(rng() * 10))`. -/
def eanDigitsAt (S : Streams) (a : ℕ) : List ℤ :=
  (List.range 12).map fun k => jsFloor (S.rand (a + k) * 10)

/-- `digits.filter((_, i) => i % 2 === 0).reduce((a, b) => a + b, 0)`:
sum of the digits at even 0-indexed positions. -/
def eanSumOdd (digits : List ℤ) : ℤ :=
  ((digits.enum.filter fun p => p.1 % 2 == 0).map fun p => p.2).sum

/-- `digits.filter((_, i) => i % 2 === 1).reduce((a, b) => a + b, 0)`:
sum of the digits at odd 0-indexed positions. -/
def eanSumEven (digits : List ℤ) : ℤ :=
  ((digits.enum.filter fun p => p.1 % 2 == 1).map fun p => p.2).sum

/-- The check digit `(10 - ((sum_odd + 3 * sum_even) % 10)) % 10`. -/
def eanCheck (digits : List ℤ) : ℤ :=
  (10 - (eanSumOdd digits + 3 * eanSumEven digits) % 10) % 10

/-- `ean13(rng)`: draw 12 digits `Math.floor(rng() * 10)`, append the EAN-13
check digit, render as a string (`[...digits, checksum].join('')`).  Digit
values are integers (`jsFloor`), so the embedding also covers streams that
violate the `[0,1)` contract. -/
def ean13 (S : Streams) (st : St) : String × St :=
  let digits := eanDigitsAt S st.r
  (String.join ((digits ++ [eanCheck digits]).map fun d => toString d), ⟨st.r + 12, st.f, st.u⟩)

/-- Category name candidate: `faker.word.noun().slice(0, 64)` (capitalisation
of the first letter is abstracted into the faker stream). -/
def catName (w : String) : String := w.take 64

/-- Product display name from three faker draws (company, color, noun);
whitespace normalisation and capitalisation are abstracted, `slice(0, 64)`
is kept. -/
def productName (a b c : String) : String := (a ++ " " ++ b ++ " " ++ c).take 64

/-- Store name candidate: `` `${faker.company.name()} Store`.slice(0, 64) ``. -/
def storeName (w : String) : String := (w ++ " Store").take 64

/-- Store url candidate:
`` `https://${faker.internet.domainName()}/${faker.lorem.slug()}`.slice(0, 128) ``. -/
def storeUrl (d s : String) : String := ("https://" ++ d ++ "/" ++ s).take 128

/-- The `while (categories.length < n_categories)` loop of `generateData`:
draw a candidate name, skip it if already used, otherwise mint a uuid and push.
`fuel` bounds the number of loop iterations. -/
def genCats (S : Streams) (n : ℕ) : ℕ → List Category → St → Option (List Category × St)
  | 0, acc, st => if acc.length ≥ n then some (acc, st) else none
  | fuel + 1, acc, st =>
    if acc.length ≥ n then some (acc, st)
    else
      let (w, st1) := nextFake S st
      let name := catName w
      if name ∈ acc.map Category.name then genCats S n fuel acc st1
      else
        let (cid, st2) := nextUuid S st1
        genCats S n fuel (acc ++ [⟨cid, name⟩]) st2

/-- `let e = ean13(rng); while (usedEans.has(e)) e = ean13(rng)`:
the first draw is unconditional, `fuel` bounds the number of retries. -/
def genEanLoop (S : Streams) : ℕ → List String → St → Option (String × St)
  | 0, used, st =>
    let (e, st1) := ean13 S st
    if e ∈ used then none else some (e, st1)
  | fuel + 1, used, st =>
    let (e, st1) := ean13 S st
    if e ∈ used then genEanLoop S fuel used st1 else some (e, st1)

/-- The `for (let i = 0; i < n_products; i++)` loop of `generateData`:
pick a category (fresh uuid fallback when none — the branch the source marks
"should not happen"), compose a name, draw a retail price, draw a fresh EAN,
mint the id.  Returns the products together with the number of times the
fallback branch ran. -/
def genProds (S : Streams) (cats : List Category) (fuel : ℕ) :
    ℕ → List Product → ℕ → St → Option (List Product × ℕ × St)
  | 0, acc, fb, st => some (acc, fb, st)
  | rem + 1, acc, fb, st =>
    let pick : Option Category × St :=
      if cats.length = 0 then (none, st)
      else
        let (q, st') := nextRand S st
        (listGetJS cats (jsFloor (q * (cats.length : ℚ))), st')
    let catOpt := pick.1
    let st1 := pick.2
    let (na, st2) := nextFake S st1
    let (nb, st3) := nextFake S st2
    let (nc, st4) := nextFake S st3
    let pname := productName na nb nc
    let (qr, st5) := nextRand S st4
    let retail := round2 (2.5 + qr * (999.99 - 2.5))
    match genEanLoop S fuel (acc.map Product.ean) st5 with
    | none => none
    | some (e, st6) =>
      let (pid, st7) := nextUuid S st6
      let idFb : String × ℕ × St :=
        match catOpt with
        | some cat => (cat.id, fb, st7)
        | none =>
          let (fresh, st') := nextUuid S st7
          (fresh, fb + 1, st')
      genProds S cats fuel rem (acc ++ [⟨pid, idFb.1, e, pname, retail⟩]) idFb.2.1 idFb.2.2

/-- The `while (stores.length < n_stores)` loop of `generateData`:
draw a (name, url) candidate pair, skip on either collision, otherwise mint a
uuid and push. -/
def genStores (S : Streams) (n : ℕ) : ℕ → List Store → St → Option (List Store × St)
  | 0, acc, st => if acc.length ≥ n then some (acc, st) else none
  | fuel + 1, acc, st =>
    if acc.length ≥ n then some (acc, st)
    else
      let (cn, st1) := nextFake S st
      let sname := storeName cn
      let (dn, st2) := nextFake S st1
      let (sl, st3) := nextFake S st2
      let url := storeUrl dn sl
      if sname ∈ acc.map Store.name ∨ url ∈ acc.map Store.url then
        genStores S n fuel acc st3
      else
        let (sid, st4) := nextUuid S st3
        genStores S n fuel (acc ++ [⟨sid, sname, url⟩]) st4

/-- `[allPairs[i], allPairs[j]] = [allPairs[j], allPairs[i]]` with the JS index
`j` possibly out of range (unreachable when the random source obeys its
`[0,1)` contract; out of range the list is returned unchanged). -/
def swapJS {α : Type} (l : List α) (i : ℕ) (j : ℤ) : List α :=
  if h : i < l.length ∧ 0 ≤ j ∧ j.toNat < l.length then
    (l.set i (l.get ⟨j.toNat, h.2.2⟩)).set j.toNat (l.get ⟨i, h.1⟩)
  else l

/-- The nested `for (const s of stores) for (const p of products)` loops that
enumerate the cross product of stores and products. -/
def allPairsOf (stores : List Store) (prods : List Product) : List PairEntry :=
  stores.flatMap fun s => prods.map fun p => (s.id, p.id, p.retailPrice)

/-- The Fisher–Yates loop `for (let i = allPairs.length - 1; i > 0; i--)`:
the argument is the current JS loop index `i`. -/
def fyLoop (S : Streams) : ℕ → List PairEntry → St → List PairEntry × St
  | 0, l, st => (l, st)
  | k + 1, l, st =>
    let (q, st1) := nextRand S st
    fyLoop S k (swapJS l (k + 1) (jsFloor (q * ((k + 2 : ℕ) : ℚ)))) st1

/-- The `for (const [store_id, product_id, basePrice] of sampled)` loop:
price = `Math.round(basePrice * (0.6 + rng() * 0.6) * 100) / 100`,
amount = `Math.floor(rng() * 251)`. -/
def genOffers (S : Streams) : List PairEntry → St → List Offer × St
  | [], st => ([], st)
  | t :: rest, st =>
    let (q1, st1) := nextRand S st
    let price := round2 (t.2.2 * (0.6 + q1 * 0.6))
    let (q2, st2) := nextRand S st1
    let amount := jsFloor (q2 * 251)
    let (os, st3) := genOffers S rest st2
    (⟨t.1, t.2.1, price, amount⟩ :: os, st3)

/-- The four entity arrays returned by `generateData`. -/
structure Dataset where
  categories : List Category
  products : List Product
  stores : List Store
  offers : List Offer
deriving DecidableEq

/-- Result of a completed `generateData` call: the dataset, the `console.warn`
messages emitted, the number of times the fresh-uuid category fallback ran,
and the final stream state. -/
structure GenResult where
  data : Dataset
  warnings : List String
  fallbackUsed : ℕ
  final : St
deriving DecidableEq

/-- The warning logged when offers are requested with zero stores or products. -/
def offersZeroWarn : String :=
  "[WARN] Offers requested but either stores or products is 0; setting offers to 0."

/-- The warning logged when the requested offer count exceeds the number of
unique (store, product) pairs (the interpolated counts are abstracted). -/
def offersCapWarn : String :=
  "[WARN] Requested more offers than unique (store, product) pairs exist. Capping."

/-- The error message thrown on the configuration check. -/
def configErrMsg : String :=
  "Cannot create products without at least 1 category. Increase categories or set products 0."

/-- `generateData({n_categories, n_products, n_stores, n_offers, rng})` from
`src/seeding/seed.js` lines 97–184.  `.error` is the thrown configuration
error; `.ok none` means some retry loop exceeded `fuel` iterations (i.e. the
JS call has not returned within that bound); `.ok (some _)` is a completed
call. -/
def generateData (S : Streams) (fuel n_categories n_products n_stores n_offers : ℕ)
    (st : St) : Except String (Option GenResult) :=
  if n_categories < 1 ∧ n_products > 0 then
    .error configErrMsg
  else
    let n_offers1 := if (n_stores = 0 ∨ n_products = 0) ∧ n_offers > 0 then 0 else n_offers
    let warns1 := if (n_stores = 0 ∨ n_products = 0) ∧ n_offers > 0 then [offersZeroWarn] else []
    match genCats S n_categories fuel [] st with
    | none => .ok none
    | some (cats, st1) =>
      match genProds S cats fuel n_products [] 0 st1 with
      | none => .ok none
      | some (prods, fb, st2) =>
        match genStores S n_stores fuel [] st2 with
        | none => .ok none
        | some (stores, st3) =>
          if n_offers1 > 0 ∧ stores.length ≠ 0 ∧ prods.length ≠ 0 then
            let allPairs := allPairsOf stores prods
            let maxPossible := allPairs.length
            let n_offers2 := if n_offers1 > maxPossible then maxPossible else n_offers1
            let warns2 := if n_offers1 > maxPossible then [offersCapWarn] else []
            let shuffled := fyLoop S (allPairs.length - 1) allPairs st3
            let sampled := shuffled.1.take n_offers2
            let offers := genOffers S sampled shuffled.2
            .ok (some ⟨⟨cats, prods, stores, offers.1⟩, warns1 ++ warns2, fb, offers.2⟩)
          else
            .ok (some ⟨⟨cats, prods, stores, []⟩, warns1, fb, st3⟩)

/-- `generateData` terminates on the given inputs: some iteration bound
suffices for every retry loop, so the JS call returns a dataset. -/
def Terminates (S : Streams) (n_categories n_products n_stores n_offers : ℕ) (st : St) : Prop :=
  ∃ fuel r, generateData S fuel n_categories n_products n_stores n_offers st = .ok (some r)

/-- A degenerate but contract-conforming random source: every value the code
draws is `0`, every faker candidate is the same word, every uuid is fresh. -/
def zeroStreams : Streams :=
  ⟨fun _ => 0, fun _ => "word", fun k => "uuid-" ++ toString k⟩

/-- Concrete well-behaved streams used to instantiate the theorems: random
values cycle through 0, 0.1, …, 0.9 (all in `[0,1)`), faker candidates are
pairwise distinct words, uuids are pairwise distinct. -/
def wStreams : Streams :=
  ⟨fun n => ((n % 10 : ℕ) : ℚ) / 10,
   fun n => "w" ++ toString n,
   fun k => String.mk (List.replicate (k + 1) 'u')⟩

/-- The result `generateData` computes on `wStreams` with fuel 30 and
(categories, products, stores, offers) = (1, 2, 1, 5): the requested 5 offers
are capped to the 1 × 2 = 2 available pairs, with the warning signal. -/
def wRes : GenResult :=
  ⟨⟨[⟨"u", "w0"⟩],
    [⟨"uu", "u", "2345678901234", "w1 w2 w3", 409/4⟩,
     ⟨"uuu", "u", "6789012345678", "w4 w5 w6", 2005/4⟩],
    [⟨"uuuu", "w7 Store", "https://w8/w9"⟩],
    [⟨"uuuu", "uu", 11657/100, 0⟩, ⟨"uuuu", "uuu", 33083/100, 50⟩]⟩,
   [offersCapWarn], 0, ⟨33, 10, 4⟩⟩

/-- The result `generateData` computes on `wStreams` with fuel 30 and
(categories, products, stores, offers) = (2, 1, 0, 7): offers are coerced to
zero with the warning signal, non-fatally. -/
def wRes2 : GenResult :=
  ⟨⟨[⟨"u", "w0"⟩, ⟨"uu", "w1"⟩],
    [⟨"uuu", "u", "2345678901234", "w2 w3 w4", 409/4⟩],
    [], []⟩,
   [offersZeroWarn], 0, ⟨14, 5, 3⟩⟩

/-- Equality of `generateData` results is decidable (used to evaluate the
generator on concrete inputs inside proofs). -/
instance decEqExceptGen : DecidableEq (Except String (Option GenResult)) := fun a b =>
  match a, b with
  | .ok x, .ok y =>
    match decEq x y with
    | isTrue h => isTrue (h ▸ rfl)
    | isFalse h => isFalse fun c => h (Except.ok.inj c)
  | .error x, .error y =>
    match decEq x y with
    | isTrue h => isTrue (h ▸ rfl)
    | isFalse h => isFalse fun c => h (Except.error.inj c)
  | .ok _, .error _ => isFalse fun c => Except.noConfusion c
  | .error _, .ok _ => isFalse fun c => Except.noConfusion c

/-- Two invocations of the program under the same seed: the seeded sources
(`Math.random` via seedrandom, faker) replay identically, but `uuidv7()` draws
from an unseeded time/crypto source, so the uuid supply of the first
invocation differs from that of the second.  `uuidRunA`/`uuidRunB` model the
two invocations' streams: identical `rand` and `fake`, different `uuid`. -/
def uuidRunA : Streams := ⟨fun _ => 0, fun _ => "word", fun k => "a" ++ toString k⟩

/-- Second invocation's streams; see `uuidRunA`. -/
def uuidRunB : Streams := ⟨fun _ => 0, fun _ => "word", fun k => "b" ++ toString k⟩

/-- The EAN-13 string `ean13` renders when the random cursor stands at `a`
(it depends only on the cursor). -/
def eanAt (S : Streams) (a : ℕ) : String := (ean13 S ⟨a, 0, 0⟩).1

/-! ### CSV serializer (`src/seeding/csv_writer.js`)

Cells and texts are lists of characters; the serializer and the parser are
embedded character by character. -/

/-- The characters of the `escapeCSV` test `/[",\r\n]/`. -/
def csvSpecial (c : Char) : Bool :=
  c = '\"' || c = ',' || c = '\r' || c = '\n'

/-- `s.replace(/"/g, '""')`: double every internal quote. -/
def doubleQuotes : List Char → List Char
  | [] => []
  | c :: rest => if c = '\"' then '\"' :: '\"' :: doubleQuotes rest else c :: doubleQuotes rest

/-- `escapeCSV`: wrap the cell in quotes if it contains a comma, quote, CR or
LF, doubling internal quotes; otherwise return it unchanged. -/
def escapeCSV (s : List Char) : List Char :=
  if s.any csvSpecial then '\"' :: (doubleQuotes s ++ ['\"']) else s

/-- JS `Array.prototype.join(sep)` on lists of characters. -/
def joinSep (sep : List Char) : List (List Char) → List Char
  | [] => []
  | [x] => x
  | x :: xs => x ++ sep ++ joinSep sep xs

/-- One data line of `arrayToCSV`: the escaped cells joined with commas. -/
def csvLine (cells : List (List Char)) : List Char :=
  joinSep [','] (cells.map escapeCSV)

/-- `arrayToCSV`: the raw header line (`headers.join(',')`), then one escaped
line per row, joined with newlines, plus a trailing newline. -/
def arrayToCSV (headers : List (List Char)) (rows : List (List (List Char))) : List Char :=
  joinSep ['\n'] (joinSep [','] headers :: rows.map csvLine) ++ ['\n']

/-- The character loop of `parseCSV` (arguments: remaining input, current
cell, current row, emitted rows, in-quotes flag), faithful to the source
including the escaped-quote lookahead, CRLF/CR/LF handling and the final
flush of a pending cell/row. -/
def parseCSVAux : List Char → List Char → List (List Char) → List (List (List Char)) → Bool →
    List (List (List Char))
  | [], cur, row, rows, _ =>
    if cur ≠ [] ∨ row ≠ [] then rows ++ [row ++ [cur]] else rows
  | c :: t, cur, row, rows, true =>
    if c = '\"' then
      if t.head? = some '\"' then parseCSVAux t.tail (cur ++ ['\"']) row rows true
      else parseCSVAux t cur row rows false
    else parseCSVAux t (cur ++ [c]) row rows true
  | c :: t, cur, row, rows, false =>
    if c = '\"' then parseCSVAux t cur row rows true
    else if c = ',' then parseCSVAux t [] (row ++ [cur]) rows false
    else if c = '\r' then
      if t.head? = some '\n' then parseCSVAux t.tail [] [] (rows ++ [row ++ [cur]]) false
      else parseCSVAux t [] [] (rows ++ [row ++ [cur]]) false
    else if c = '\n' then parseCSVAux t [] [] (rows ++ [row ++ [cur]]) false
    else parseCSVAux t (cur ++ [c]) row rows false
termination_by l _ _ _ _ => l.length
decreasing_by
  all_goals simp_wf
  all_goals omega

/-- `parseCSV`: empty input yields no rows, a leading BOM is stripped, then
the character loop runs from the initial state. -/
def parseCSV (text : List Char) : List (List (List Char)) :=
  match text with
  | [] => []
  | c :: t =>
    if c = Char.ofNat 0xfeff then parseCSVAux t [] [] [] false
    else parseCSVAux (c :: t) [] [] [] false

/-- JS `String.trim` on a cell. -/
def trimCell (s : List Char) : List Char :=
  ((s.dropWhile Char.isWhitespace).reverse.dropWhile Char.isWhitespace).reverse

/-- `rowsToObjects`: the first row is the (trimmed) header; each data row
becomes the association `header[i] ↦ cells[i]`, the key falling back to
`columnN` for an empty header cell and the value to the empty string for a
missing cell. -/
def rowsToObjects (rows : List (List (List Char))) : List (List (List Char × List Char)) :=
  match rows with
  | [] => []
  | header :: dataRows =>
    let hd := header.map trimCell
    dataRows.map fun cells =>
      (List.range hd.length).map fun i =>
        (if (hd.get? i).getD [] = [] then "column".toList ++ (toString i).toList
          else (hd.get? i).getD [],
         (cells.get? i).getD [])

/-- A plain header cell: nonempty, free of the quoting-relevant characters,
of whitespace and of the BOM, so that writing and re-reading it is the
identity. -/
def plainCell (s : List Char) : Prop :=
  s ≠ [] ∧ ∀ c ∈ s, csvSpecial c = false ∧ c.isWhitespace = false ∧ c ≠ Char.ofNat 0xfeff

instance (s : List Char) : Decidable (plainCell s) :=
  inferInstanceAs (Decidable (_ ∧ _))

/-! ## Theorems -/

theorem jsFloor_eq (q : ℚ) : jsFloor q = ⌊q⌋ := rfl

theorem jsFloor_nonneg {q : ℚ} (h : 0 ≤ q) : 0 ≤ jsFloor q :=
  (jsFloor_eq q) ▸ Int.floor_nonneg.2 h

theorem jsFloor_scale_bounds {q : ℚ} (n : ℕ) (h0 : 0 ≤ q) (h1 : q < 1) :
    0 ≤ jsFloor (q * (n : ℚ)) ∧ jsFloor (q * (n : ℚ)) < (n : ℤ) ∨
      n = 0 ∧ jsFloor (q * (n : ℚ)) = 0 := by
  rcases Nat.eq_zero_or_pos n with hn | hn
  · right
    simp [hn, jsFloor_eq]
  · left
    constructor
    · rw [jsFloor_eq]
      exact Int.floor_nonneg.2 (by positivity)
    rw [jsFloor_eq, Int.floor_lt]
    push_cast
    calc q * (n : ℚ) < 1 * (n : ℚ) := by
          exact mul_lt_mul_of_pos_right h1 (by exact_mod_cast hn)
      _ = (n : ℚ) := one_mul _

theorem jsFloor_pos_scale {q : ℚ} {n : ℕ} (hn : 0 < n) (h0 : 0 ≤ q) (h1 : q < 1) :
    0 ≤ jsFloor (q * (n : ℚ)) ∧ jsFloor (q * (n : ℚ)) < (n : ℤ) := by
  rcases jsFloor_scale_bounds n h0 h1 with h | h
  · exact h
  · omega

theorem string_foldl_append_data (l : List String) (a : String) :
    (l.foldl (· ++ ·) a).data = a.data ++ (l.map String.data).flatten := by
  induction l generalizing a with
  | nil => simp
  | cons h t ih => simp [List.foldl_cons, ih, String.data_append]

theorem string_join_data (l : List String) :
    (String.join l).data = (l.map String.data).flatten := by
  simp [String.join, string_foldl_append_data l ""]

theorem int_digit_data {d : ℤ} (h0 : 0 ≤ d) (h1 : d < 10) :
    (toString d).data = [Char.ofNat (48 + d.toNat)] := by
  interval_cases d <;> decide

theorem int_digit_isDigit {d : ℤ} (h0 : 0 ≤ d) (h1 : d < 10) :
    (Char.ofNat (48 + d.toNat)).isDigit := by
  interval_cases d <;> decide

theorem eanDigitsAt_bounds (S : Streams) (a : ℕ)
    (hr : ∀ n, 0 ≤ S.rand n ∧ S.rand n < 1) :
    ∀ d ∈ eanDigitsAt S a, 0 ≤ d ∧ d < 10 := by
  intro d hd
  rcases List.mem_map.1 hd with ⟨k, _, rfl⟩
  exact jsFloor_pos_scale (by norm_num) (hr (a + k)).1 (hr (a + k)).2

theorem eanCheck_bounds (digits : List ℤ) :
    0 ≤ eanCheck digits ∧ eanCheck digits ≤ 9 := by
  unfold eanCheck
  constructor
  · exact Int.emod_nonneg _ (by norm_num)
  · have := Int.emod_lt_of_pos (10 - (eanSumOdd digits + 3 * eanSumEven digits) % 10)
      (show (0:ℤ) < 10 by norm_num)
    omega

theorem digit_list_data (ds : List ℤ) (h : ∀ d ∈ ds, 0 ≤ d ∧ d < 10) :
    ((ds.map fun d => toString d).map String.data).flatten
      = ds.map fun d => Char.ofNat (48 + d.toNat) := by
  induction ds with
  | nil => simp
  | cons x t ih =>
    have hx := h x (List.mem_cons_self x t)
    simp only [List.map_cons, List.flatten_cons, int_digit_data hx.1 hx.2]
    rw [ih fun d hd => h d (List.mem_cons_of_mem x hd)]
    rfl

@[simp] theorem St_mk_r (r f u : ℕ) : (⟨r, f, u⟩ : St).r = r := rfl

@[simp] theorem St_mk_f (r f u : ℕ) : (⟨r, f, u⟩ : St).f = f := rfl

@[simp] theorem St_mk_u (r f u : ℕ) : (⟨r, f, u⟩ : St).u = u := rfl

theorem genCats_spec (S : Streams) (n : ℕ) :
    ∀ (fuel : ℕ) (acc : List Category) (st : St) (l : List Category) (st2 : St),
      genCats S n fuel acc st = some (l, st2) →
      (∃ ext, l = acc ++ ext) ∧
      l.length = max n acc.length ∧
      st2.r = st.r ∧ st.f ≤ st2.f ∧ st.u ≤ st2.u ∧
      (∀ c ∈ l, c ∈ acc ∨ ∃ k, st.u ≤ k ∧ k < st2.u ∧ c.id = S.uuid k) := by
  intro fuel
  induction fuel with
  | zero =>
    intro acc st l st2 h
    simp only [genCats] at h
    split at h
    · next hge =>
      simp only [Option.some.injEq, Prod.mk.injEq] at h
      obtain ⟨rfl, rfl⟩ := h
      exact ⟨⟨[], by simp⟩, (Nat.max_eq_right hge).symm, rfl, le_refl _, le_refl _,
        fun c hc => Or.inl hc⟩
    · exact absurd h (by simp)
  | succ fuel ih =>
    intro acc st l st2 h
    simp only [genCats, nextFake, nextUuid] at h
    split at h
    · next hge =>
      simp only [Option.some.injEq, Prod.mk.injEq] at h
      obtain ⟨rfl, rfl⟩ := h
      exact ⟨⟨[], by simp⟩, (Nat.max_eq_right hge).symm, rfl, le_refl _, le_refl _,
        fun c hc => Or.inl hc⟩
    · next hge =>
      have hlt : acc.length < n := Nat.lt_of_not_le hge
      split at h
      · rcases ih acc _ l st2 h with ⟨hext, hlen, hr2, hf2, hu2, hmem⟩
        refine ⟨hext, hlen, hr2, le_trans (Nat.le_succ _) hf2, hu2, ?_⟩
        intro c hc
        exact hmem c hc
      · rcases ih _ _ l st2 h with ⟨⟨ext, hext⟩, hlen, hr2, hf2, hu2, hmem⟩
        simp only [St_mk_r, St_mk_f, St_mk_u] at hr2 hf2 hu2 hmem
        refine ⟨⟨⟨S.uuid st.u, catName (S.fake st.f)⟩ :: ext, by simp [hext]⟩, ?_,
          hr2, le_trans (Nat.le_succ _) hf2, le_trans (Nat.le_succ _) hu2, ?_⟩
        · rw [hlen]
          simp only [List.length_append, List.length_singleton]
          omega
        · intro c hc
          rcases hmem c hc with hin | ⟨k, hk1, hk2, hk3⟩
          · rcases List.mem_append.1 hin with hin | hin
            · exact Or.inl hin
            · rcases List.mem_singleton.1 hin with rfl
              exact Or.inr ⟨st.u, le_refl _, by omega, rfl⟩
          · exact Or.inr ⟨k, by omega, hk2, hk3⟩

theorem genCats_ids_nodup (S : Streams) (n : ℕ) (hu : Function.Injective S.uuid) :
    ∀ (fuel : ℕ) (acc : List Category) (st : St) (l : List Category) (st2 : St),
      genCats S n fuel acc st = some (l, st2) →
      (acc.map Category.id).Nodup →
      (∀ c ∈ acc, ∃ k < st.u, c.id = S.uuid k) →
      (l.map Category.id).Nodup ∧ ∀ c ∈ l, ∃ k < st2.u, c.id = S.uuid k := by
  intro fuel
  induction fuel with
  | zero =>
    intro acc st l st2 h hnd hbelow
    simp only [genCats] at h
    split at h
    · simp only [Option.some.injEq, Prod.mk.injEq] at h
      obtain ⟨rfl, rfl⟩ := h
      exact ⟨hnd, hbelow⟩
    · exact absurd h (by simp)
  | succ fuel ih =>
    intro acc st l st2 h hnd hbelow
    simp only [genCats, nextFake, nextUuid] at h
    split at h
    · simp only [Option.some.injEq, Prod.mk.injEq] at h
      obtain ⟨rfl, rfl⟩ := h
      exact ⟨hnd, hbelow⟩
    · split at h
      · exact ih acc _ l st2 h hnd hbelow
      · refine ih _ _ l st2 h ?_ ?_
        · simp only [List.map_append, List.map_cons, List.map_nil]
          rw [List.nodup_append]
          refine ⟨hnd, List.nodup_singleton _, ?_⟩
          intro x hx hx'
          rcases List.mem_singleton.1 hx' with rfl
          rcases List.mem_map.1 hx with ⟨c, hc, hcid⟩
          rcases hbelow c hc with ⟨k, hk, hkid⟩
          rw [hkid] at hcid
          have := hu hcid
          omega
        · intro c hc
          rcases List.mem_append.1 hc with hin | hin
          · rcases hbelow c hin with ⟨k, hk, hkid⟩
            exact ⟨k, by simp only [St_mk_u]; omega, hkid⟩
          · rcases List.mem_singleton.1 hin with rfl
            exact ⟨st.u, by simp only [St_mk_u]; omega, rfl⟩

theorem genStores_spec (S : Streams) (n : ℕ) :
    ∀ (fuel : ℕ) (acc : List Store) (st : St) (l : List Store) (st2 : St),
      genStores S n fuel acc st = some (l, st2) →
      (∃ ext, l = acc ++ ext) ∧
      l.length = max n acc.length ∧
      st2.r = st.r ∧ st.f ≤ st2.f ∧ st.u ≤ st2.u ∧
      (∀ s ∈ l, s ∈ acc ∨ ∃ k, st.u ≤ k ∧ k < st2.u ∧ s.id = S.uuid k) := by
  intro fuel
  induction fuel with
  | zero =>
    intro acc st l st2 h
    simp only [genStores] at h
    split at h
    · next hge =>
      simp only [Option.some.injEq, Prod.mk.injEq] at h
      obtain ⟨rfl, rfl⟩ := h
      exact ⟨⟨[], by simp⟩, (Nat.max_eq_right hge).symm, rfl, le_refl _, le_refl _,
        fun s hs => Or.inl hs⟩
    · exact absurd h (by simp)
  | succ fuel ih =>
    intro acc st l st2 h
    simp only [genStores, nextFake, nextUuid] at h
    split at h
    · next hge =>
      simp only [Option.some.injEq, Prod.mk.injEq] at h
      obtain ⟨rfl, rfl⟩ := h
      exact ⟨⟨[], by simp⟩, (Nat.max_eq_right hge).symm, rfl, le_refl _, le_refl _,
        fun s hs => Or.inl hs⟩
    · next hge =>
      have hlt : acc.length < n := Nat.lt_of_not_le hge
      split at h
      · rcases ih acc _ l st2 h with ⟨hext, hlen, hr2, hf2, hu2, hmem⟩
        simp only [St_mk_r, St_mk_f, St_mk_u] at hr2 hf2 hu2 hmem
        exact ⟨hext, hlen, hr2, by omega, hu2, hmem⟩
      · rcases ih _ _ l st2 h with ⟨⟨ext, hext⟩, hlen, hr2, hf2, hu2, hmem⟩
        simp only [St_mk_r, St_mk_f, St_mk_u] at hr2 hf2 hu2 hmem
        refine ⟨⟨⟨S.uuid st.u, storeName (S.fake st.f),
          storeUrl (S.fake (st.f + 1)) (S.fake (st.f + 2))⟩ :: ext, by simp [hext]⟩, ?_,
          hr2, by omega, by omega, ?_⟩
        · rw [hlen]
          simp only [List.length_append, List.length_singleton]
          omega
        · intro s hs
          rcases hmem s hs with hin | ⟨k, hk1, hk2, hk3⟩
          · rcases List.mem_append.1 hin with hin | hin
            · exact Or.inl hin
            · rcases List.mem_singleton.1 hin with rfl
              exact Or.inr ⟨st.u, le_refl _, by omega, rfl⟩
          · exact Or.inr ⟨k, by omega, hk2, hk3⟩

theorem genStores_ids_nodup (S : Streams) (n : ℕ) (hu : Function.Injective S.uuid) :
    ∀ (fuel : ℕ) (acc : List Store) (st : St) (l : List Store) (st2 : St),
      genStores S n fuel acc st = some (l, st2) →
      (acc.map Store.id).Nodup →
      (∀ s ∈ acc, ∃ k < st.u, s.id = S.uuid k) →
      (l.map Store.id).Nodup ∧ ∀ s ∈ l, ∃ k < st2.u, s.id = S.uuid k := by
  intro fuel
  induction fuel with
  | zero =>
    intro acc st l st2 h hnd hbelow
    simp only [genStores] at h
    split at h
    · simp only [Option.some.injEq, Prod.mk.injEq] at h
      obtain ⟨rfl, rfl⟩ := h
      exact ⟨hnd, hbelow⟩
    · exact absurd h (by simp)
  | succ fuel ih =>
    intro acc st l st2 h hnd hbelow
    simp only [genStores, nextFake, nextUuid] at h
    split at h
    · simp only [Option.some.injEq, Prod.mk.injEq] at h
      obtain ⟨rfl, rfl⟩ := h
      exact ⟨hnd, hbelow⟩
    · split at h
      · exact ih acc _ l st2 h hnd hbelow
      · refine ih _ _ l st2 h ?_ ?_
        · simp only [List.map_append, List.map_cons, List.map_nil]
          rw [List.nodup_append]
          refine ⟨hnd, List.nodup_singleton _, ?_⟩
          intro x hx hx'
          rcases List.mem_singleton.1 hx' with rfl
          rcases List.mem_map.1 hx with ⟨s, hs, hsid⟩
          rcases hbelow s hs with ⟨k, hk, hkid⟩
          rw [hkid] at hsid
          have := hu hsid
          omega
        · intro s hs
          rcases List.mem_append.1 hs with hin | hin
          · rcases hbelow s hin with ⟨k, hk, hkid⟩
            exact ⟨k, by simp only [St_mk_u]; omega, hkid⟩
          · rcases List.mem_singleton.1 hin with rfl
            exact ⟨st.u, by simp only [St_mk_u]; omega, rfl⟩

theorem ean13_snd (S : Streams) (st : St) : (ean13 S st).2 = ⟨st.r + 12, st.f, st.u⟩ := rfl

theorem genEanLoop_state (S : Streams) :
    ∀ (fuel : ℕ) (used : List String) (st : St) (e : String) (st2 : St),
      genEanLoop S fuel used st = some (e, st2) →
      st.r ≤ st2.r ∧ st2.f = st.f ∧ st2.u = st.u := by
  intro fuel
  induction fuel with
  | zero =>
    intro used st e st2 h
    simp only [genEanLoop] at h
    split at h
    · exact absurd h (by simp)
    · simp only [Option.some.injEq, Prod.mk.injEq] at h
      obtain ⟨rfl, rfl⟩ := h
      rw [ean13_snd]
      exact ⟨by simp, rfl, rfl⟩
  | succ fuel ih =>
    intro used st e st2 h
    simp only [genEanLoop] at h
    split at h
    · rcases ih used _ e st2 h with ⟨h1, h2, h3⟩
      rw [ean13_snd] at h1 h2 h3
      simp only [St_mk_r, St_mk_f, St_mk_u] at h1 h2 h3
      exact ⟨by omega, h2, h3⟩
    · simp only [Option.some.injEq, Prod.mk.injEq] at h
      obtain ⟨rfl, rfl⟩ := h
      rw [ean13_snd]
      exact ⟨by simp, rfl, rfl⟩

theorem genProds_spec (S : Streams) (cats : List Category) (fuel : ℕ) :
    ∀ (rem : ℕ) (acc : List Product) (fb : ℕ) (st : St) (l : List Product) (fb2 : ℕ) (st2 : St),
      genProds S cats fuel rem acc fb st = some (l, fb2, st2) →
      (∃ ext, l = acc ++ ext) ∧
      l.length = acc.length + rem ∧
      st.r ≤ st2.r ∧ st.f ≤ st2.f ∧ st.u ≤ st2.u ∧
      (∀ p ∈ l, p ∈ acc ∨ ∃ k, st.u ≤ k ∧ k < st2.u ∧ p.id = S.uuid k) := by
  intro rem
  induction rem with
  | zero =>
    intro acc fb st l fb2 st2 h
    simp only [genProds, Option.some.injEq, Prod.mk.injEq] at h
    obtain ⟨rfl, rfl, rfl⟩ := h
    exact ⟨⟨[], by simp⟩, by simp, le_refl _, le_refl _, le_refl _, fun p hp => Or.inl hp⟩
  | succ rem ih =>
    intro acc fb st l fb2 st2 h
    by_cases hc : cats.length = 0
    case pos =>
      simp only [genProds, nextRand, nextFake, nextUuid, if_pos hc] at h
      split at h
      · exact absurd h (by simp)
      · next e st6 hean =>
        rcases genEanLoop_state S fuel _ _ e st6 hean with ⟨he1, he2, he3⟩
        simp only [St_mk_r, St_mk_f, St_mk_u] at he1 he2 he3
        rcases ih _ _ _ l fb2 st2 h with ⟨⟨ext, hext⟩, hlen, hr2, hf2, hu2, hmem⟩
        simp only [St_mk_r, St_mk_f, St_mk_u] at hr2 hf2 hu2 hmem
        refine ⟨⟨_ :: ext, by rw [hext, List.append_assoc]; rfl⟩, ?_, by omega, by omega,
          by omega, ?_⟩
        · rw [hlen]
          simp only [List.length_append, List.length_singleton]
          omega
        · intro q hq
          rcases hmem q hq with hin | ⟨k, hk1, hk2, hk3⟩
          · rcases List.mem_append.1 hin with hin | hin
            · exact Or.inl hin
            · rcases List.mem_singleton.1 hin with rfl
              exact Or.inr ⟨st6.u, by omega, by omega, rfl⟩
          · exact Or.inr ⟨k, by omega, hk2, hk3⟩
    case neg =>
      simp only [genProds, nextRand, nextFake, nextUuid, if_neg hc] at h
      split at h
      · exact absurd h (by simp)
      · next e st6 hean =>
        rcases genEanLoop_state S fuel _ _ e st6 hean with ⟨he1, he2, he3⟩
        simp only [St_mk_r, St_mk_f, St_mk_u] at he1 he2 he3
        split at h
        all_goals
          rcases ih _ _ _ l fb2 st2 h with ⟨⟨ext, hext⟩, hlen, hr2, hf2, hu2, hmem⟩
        all_goals
          simp only [St_mk_r, St_mk_f, St_mk_u] at hr2 hf2 hu2 hmem
        all_goals
          refine ⟨⟨_ :: ext, by rw [hext, List.append_assoc]; rfl⟩, ?_, by omega, by omega,
            by omega, ?_⟩
        case _ =>
          rw [hlen]
          simp only [List.length_append, List.length_singleton]
          omega
        case _ =>
          intro q hq
          rcases hmem q hq with hin | ⟨k, hk1, hk2, hk3⟩
          · rcases List.mem_append.1 hin with hin | hin
            · exact Or.inl hin
            · rcases List.mem_singleton.1 hin with rfl
              exact Or.inr ⟨st6.u, by omega, by omega, rfl⟩
          · exact Or.inr ⟨k, by omega, hk2, hk3⟩
        case _ =>
          rw [hlen]
          simp only [List.length_append, List.length_singleton]
          omega
        case _ =>
          intro q hq
          rcases hmem q hq with hin | ⟨k, hk1, hk2, hk3⟩
          · rcases List.mem_append.1 hin with hin | hin
            · exact Or.inl hin
            · rcases List.mem_singleton.1 hin with rfl
              exact Or.inr ⟨st6.u, by omega, by omega, rfl⟩
          · exact Or.inr ⟨k, by omega, hk2, hk3⟩

theorem genProds_ids_nodup (S : Streams) (cats : List Category) (fuel : ℕ)
    (hu : Function.Injective S.uuid) :
    ∀ (rem : ℕ) (acc : List Product) (fb : ℕ) (st : St) (l : List Product) (fb2 : ℕ) (st2 : St),
      genProds S cats fuel rem acc fb st = some (l, fb2, st2) →
      (acc.map Product.id).Nodup →
      (∀ p ∈ acc, ∃ k < st.u, p.id = S.uuid k) →
      (l.map Product.id).Nodup ∧ ∀ p ∈ l, ∃ k < st2.u, p.id = S.uuid k := by
  intro rem
  induction rem with
  | zero =>
    intro acc fb st l fb2 st2 h hnd hbelow
    simp only [genProds, Option.some.injEq, Prod.mk.injEq] at h
    obtain ⟨rfl, rfl, rfl⟩ := h
    exact ⟨hnd, hbelow⟩
  | succ rem ih =>
    intro acc fb st l fb2 st2 h hnd hbelow
    by_cases hc : cats.length = 0
    case pos =>
      simp only [genProds, nextRand, nextFake, nextUuid, if_pos hc] at h
      split at h
      · exact absurd h (by simp)
      · next e st6 hean =>
        rcases genEanLoop_state S fuel _ _ e st6 hean with ⟨he1, he2, he3⟩
        simp only [St_mk_r, St_mk_f, St_mk_u] at he1 he2 he3
        refine ih _ _ _ l fb2 st2 h ?_ ?_
        · simp only [List.map_append, List.map_cons, List.map_nil]
          rw [List.nodup_append]
          refine ⟨hnd, List.nodup_singleton _, ?_⟩
          intro x hx hx'
          rcases List.mem_singleton.1 hx' with rfl
          rcases List.mem_map.1 hx with ⟨p, hp, hpid⟩
          rcases hbelow p hp with ⟨k, hk, hkid⟩
          rw [hkid] at hpid
          have := hu hpid
          omega
        · intro p hp
          rcases List.mem_append.1 hp with hin | hin
          · rcases hbelow p hin with ⟨k, hk, hkid⟩
            exact ⟨k, by simp only [St_mk_u]; omega, hkid⟩
          · rcases List.mem_singleton.1 hin with rfl
            exact ⟨st6.u, by simp only [St_mk_u]; omega, rfl⟩
    case neg =>
      simp only [genProds, nextRand, nextFake, nextUuid, if_neg hc] at h
      split at h
      · exact absurd h (by simp)
      · next e st6 hean =>
        rcases genEanLoop_state S fuel _ _ e st6 hean with ⟨he1, he2, he3⟩
        simp only [St_mk_r, St_mk_f, St_mk_u] at he1 he2 he3
        split at h
        all_goals refine ih _ _ _ l fb2 st2 h ?_ ?_
        case _ =>
          simp only [List.map_append, List.map_cons, List.map_nil]
          rw [List.nodup_append]
          refine ⟨hnd, List.nodup_singleton _, ?_⟩
          intro x hx hx'
          rcases List.mem_singleton.1 hx' with rfl
          rcases List.mem_map.1 hx with ⟨p, hp, hpid⟩
          rcases hbelow p hp with ⟨k, hk, hkid⟩
          rw [hkid] at hpid
          have := hu hpid
          omega
        case _ =>
          intro p hp
          rcases List.mem_append.1 hp with hin | hin
          · rcases hbelow p hin with ⟨k, hk, hkid⟩
            exact ⟨k, by simp only [St_mk_u]; omega, hkid⟩
          · rcases List.mem_singleton.1 hin with rfl
            exact ⟨st6.u, by simp only [St_mk_u]; omega, rfl⟩
        case _ =>
          simp only [List.map_append, List.map_cons, List.map_nil]
          rw [List.nodup_append]
          refine ⟨hnd, List.nodup_singleton _, ?_⟩
          intro x hx hx'
          rcases List.mem_singleton.1 hx' with rfl
          rcases List.mem_map.1 hx with ⟨p, hp, hpid⟩
          rcases hbelow p hp with ⟨k, hk, hkid⟩
          rw [hkid] at hpid
          have := hu hpid
          omega
        case _ =>
          intro p hp
          rcases List.mem_append.1 hp with hin | hin
          · rcases hbelow p hin with ⟨k, hk, hkid⟩
            exact ⟨k, by simp only [St_mk_u]; omega, hkid⟩
          · rcases List.mem_singleton.1 hin with rfl
            exact ⟨st6.u, by simp only [St_mk_u]; omega, rfl⟩

theorem listGetJS_pick {α : Type} (l : List α) {q : ℚ} (hq0 : 0 ≤ q) (hq1 : q < 1)
    (hl : l.length ≠ 0) :
    ∃ x, listGetJS l (jsFloor (q * (l.length : ℚ))) = some x ∧ x ∈ l := by
  have hb := jsFloor_pos_scale (Nat.pos_of_ne_zero hl) hq0 hq1
  have hcond : 0 ≤ jsFloor (q * (l.length : ℚ)) ∧
      (jsFloor (q * (l.length : ℚ))).toNat < l.length := ⟨hb.1, by omega⟩
  unfold listGetJS
  rw [dif_pos hcond]
  exact ⟨_, rfl, List.get_mem _ _ _⟩

theorem genProds_cat_mem (S : Streams) (cats : List Category) (fuel : ℕ)
    (hr : ∀ n, 0 ≤ S.rand n ∧ S.rand n < 1) (hcats : cats.length ≠ 0) :
    ∀ (rem : ℕ) (acc : List Product) (fb : ℕ) (st : St) (l : List Product) (fb2 : ℕ) (st2 : St),
      genProds S cats fuel rem acc fb st = some (l, fb2, st2) →
      (∀ p ∈ acc, ∃ c ∈ cats, p.category_id = c.id) →
      (∀ p ∈ l, ∃ c ∈ cats, p.category_id = c.id) ∧ fb2 = fb := by
  intro rem
  induction rem with
  | zero =>
    intro acc fb st l fb2 st2 h hacc
    simp only [genProds, Option.some.injEq, Prod.mk.injEq] at h
    obtain ⟨rfl, rfl, rfl⟩ := h
    exact ⟨hacc, rfl⟩
  | succ rem ih =>
    intro acc fb st l fb2 st2 h hacc
    simp only [genProds, nextRand, nextFake, nextUuid, if_neg hcats] at h
    split at h
    · exact absurd h (by simp)
    · next e st6 hean =>
      split at h
      · next cat heq =>
        rcases listGetJS_pick cats (hr st.r).1 (hr st.r).2 hcats with ⟨cat', hget, hmemc⟩
        rw [heq] at hget
        simp only [Option.some.injEq] at hget
        subst hget
        refine ih _ _ _ l fb2 st2 h ?_
        intro p hp
        rcases List.mem_append.1 hp with hin | hin
        · exact hacc p hin
        · rcases List.mem_singleton.1 hin with rfl
          exact ⟨cat, hmemc, rfl⟩
      · next heq =>
        rcases listGetJS_pick cats (hr st.r).1 (hr st.r).2 hcats with ⟨cat, hget, hmem⟩
        rw [heq] at hget
        exact absurd hget (by simp)

theorem allPairsOf_mem {stores : List Store} {prods : List Product} {t : PairEntry} :
    t ∈ allPairsOf stores prods ↔
      ∃ s ∈ stores, ∃ p ∈ prods, t = (s.id, p.id, p.retailPrice) := by
  simp only [allPairsOf, List.mem_flatMap, List.mem_map]
  constructor
  · rintro ⟨s, hs, p, hp, rfl⟩
    exact ⟨s, hs, p, hp, rfl⟩
  · rintro ⟨s, hs, p, hp, rfl⟩
    exact ⟨s, hs, p, hp, rfl⟩

theorem allPairsOf_length (stores : List Store) (prods : List Product) :
    (allPairsOf stores prods).length = stores.length * prods.length := by
  induction stores with
  | nil => simp [allPairsOf]
  | cons s rest ih =>
    simp only [allPairsOf, List.flatMap_cons, List.length_append, List.length_map,
      List.length_cons] at *
    rw [ih]
    ring

theorem allPairsOf_pairs_nodup (stores : List Store) (prods : List Product)
    (hs : (stores.map Store.id).Nodup) (hp : (prods.map Product.id).Nodup) :
    ((allPairsOf stores prods).map fun t => (t.1, t.2.1)).Nodup := by
  induction stores with
  | nil => simp [allPairsOf]
  | cons s rest ih =>
    simp only [List.map_cons, List.nodup_cons] at hs
    simp only [allPairsOf, List.flatMap_cons, List.map_append, List.map_map]
    rw [List.nodup_append]
    refine ⟨?_, ih hs.2, ?_⟩
    · refine List.Nodup.map_on ?_ hp.of_map
      intro x hx y hy hxy
      simp only [Function.comp] at hxy
      have hid : x.id = y.id := by
        have := congrArg Prod.snd hxy
        simpa using this
      exact List.inj_on_of_nodup_map hp hx hy hid
    · intro z hz hz'
      rcases List.mem_map.1 hz with ⟨p, hpmem, rfl⟩
      rcases List.mem_map.1 hz' with ⟨t, htmem, hteq⟩
      rcases allPairsOf_mem.1 htmem with ⟨s', hs', p', hp', rfl⟩
      have : s.id = s'.id := by
        have := congrArg Prod.fst hteq
        simpa using this.symm
      exact hs.1 (this ▸ List.mem_map.2 ⟨s', hs', rfl⟩)

theorem generateData_some_elim {S : Streams} {fuel nc np ns nf : ℕ} {st : St} {res : GenResult}
    (h : generateData S fuel nc np ns nf st = .ok (some res)) :
    ¬(nc < 1 ∧ np > 0) ∧
    ∃ cats st1 prods fb st2 stores st3,
      genCats S nc fuel [] st = some (cats, st1) ∧
      genProds S cats fuel np [] 0 st1 = some (prods, fb, st2) ∧
      genStores S ns fuel [] st2 = some (stores, st3) ∧
      res.data.categories = cats ∧ res.data.products = prods ∧
      res.data.stores = stores ∧ res.fallbackUsed = fb ∧
      ((ns = 0 ∨ np = 0) ∧ nf > 0 → res.warnings = [offersZeroWarn] ∧ res.data.offers = []) ∧
      ∀ n1, n1 = (if (ns = 0 ∨ np = 0) ∧ nf > 0 then 0 else nf) →
        (n1 > 0 ∧ stores.length ≠ 0 ∧ prods.length ≠ 0 →
          res.data.offers = (genOffers S
            ((fyLoop S ((allPairsOf stores prods).length - 1) (allPairsOf stores prods) st3).1.take
              (if n1 > (allPairsOf stores prods).length then (allPairsOf stores prods).length
                else n1))
            (fyLoop S ((allPairsOf stores prods).length - 1) (allPairsOf stores prods) st3).2).1) ∧
        (¬(n1 > 0 ∧ stores.length ≠ 0 ∧ prods.length ≠ 0) → res.data.offers = []) := by
  unfold generateData at h
  split at h
  · exact absurd h (by simp)
  · next hcfg =>
    refine ⟨hcfg, ?_⟩
    by_cases hco : (ns = 0 ∨ np = 0) ∧ nf > 0
    case pos =>
      simp only [if_pos hco] at h
      split at h
      · exact absurd h (by simp)
      · next cats st1 hcats =>
        split at h
        · exact absurd h (by simp)
        · next prods fb st2 hprods =>
          split at h
          · exact absurd h (by simp)
          · next stores st3 hstores =>
            rw [if_neg (by simp)] at h
            simp only [Except.ok.injEq, Option.some.injEq] at h
            subst h
            refine ⟨cats, st1, prods, fb, st2, stores, st3, hcats, hprods, hstores,
              rfl, rfl, rfl, rfl, fun _ => ⟨rfl, rfl⟩, ?_⟩
            intro n1 hn1
            rw [if_pos hco] at hn1
            subst hn1
            exact ⟨fun hg => absurd hg.1 (by omega), fun _ => rfl⟩
    case neg =>
      simp only [if_neg hco] at h
      split at h
      · exact absurd h (by simp)
      · next cats st1 hcats =>
        split at h
        · exact absurd h (by simp)
        · next prods fb st2 hprods =>
          split at h
          · exact absurd h (by simp)
          · next stores st3 hstores =>
            refine ⟨cats, st1, prods, fb, st2, stores, st3, hcats, hprods, hstores, ?_⟩
            split at h
            · next hguard =>
              simp only [Except.ok.injEq, Option.some.injEq] at h
              subst h
              refine ⟨rfl, rfl, rfl, rfl, fun hc => absurd hc hco, ?_⟩
              intro n1 hn1
              rw [if_neg hco] at hn1
              subst hn1
              exact ⟨fun _ => rfl, fun hng => absurd hguard hng⟩
            · next hguard =>
              simp only [Except.ok.injEq, Option.some.injEq] at h
              subst h
              refine ⟨rfl, rfl, rfl, rfl, fun hc => absurd hc hco, ?_⟩
              intro n1 hn1
              rw [if_neg hco] at hn1
              subst hn1
              exact ⟨fun hg => absurd hg hguard, fun _ => rfl⟩

theorem get_cons_set_perm {α : Type} :
    ∀ (t : List α) (k : ℕ) (h : k < t.length) (a : α),
      (t.get ⟨k, h⟩ :: t.set k a).Perm (a :: t)
  | b :: t, 0, _, a => by
    simpa using List.Perm.swap a b t
  | b :: t, k + 1, h, a => by
    have hk : k < t.length := Nat.lt_of_succ_lt_succ h
    exact (List.Perm.swap b (t.get ⟨k, hk⟩) (t.set k a)).trans
      (((get_cons_set_perm t k hk a).cons b).trans (List.Perm.swap a b t))

theorem set_set_swap_perm {α : Type} :
    ∀ (l : List α) (i j : ℕ) (hi : i < l.length) (hj : j < l.length),
      ((l.set i (l.get ⟨j, hj⟩)).set j (l.get ⟨i, hi⟩)).Perm l
  | a :: t, 0, 0, _, _ => by simp
  | a :: t, 0, k + 1, hi, hj => by
    have hk : k < t.length := Nat.lt_of_succ_lt_succ hj
    simpa using get_cons_set_perm t k hk a
  | a :: t, m + 1, 0, hi, hj => by
    have hm : m < t.length := Nat.lt_of_succ_lt_succ hi
    simpa using get_cons_set_perm t m hm a
  | a :: t, m + 1, k + 1, hi, hj => by
    have hm : m < t.length := Nat.lt_of_succ_lt_succ hi
    have hk : k < t.length := Nat.lt_of_succ_lt_succ hj
    simpa using (set_set_swap_perm t m k hm hk).cons a

theorem swapJS_perm {α : Type} (l : List α) (i : ℕ) (j : ℤ) : (swapJS l i j).Perm l := by
  unfold swapJS
  split
  · next h => exact set_set_swap_perm l i j.toNat h.1 h.2.2
  · exact List.Perm.refl l

theorem fyLoop_perm (S : Streams) :
    ∀ (k : ℕ) (l : List PairEntry) (st : St), ((fyLoop S k l st).1).Perm l
  | 0, l, st => List.Perm.refl l
  | k + 1, l, st => by
    unfold fyLoop
    exact (fyLoop_perm S k _ _).trans (swapJS_perm l (k + 1) _)

theorem fyLoop_length (S : Streams) (k : ℕ) (l : List PairEntry) (st : St) :
    (fyLoop S k l st).1.length = l.length :=
  (fyLoop_perm S k l st).length_eq

theorem genOffers_pairs (S : Streams) :
    ∀ (l : List PairEntry) (st : St),
      (genOffers S l st).1.map pairOf = l.map fun t => (t.1, t.2.1)
  | [], _ => rfl
  | t :: rest, st => by
    unfold genOffers
    simp [pairOf, genOffers_pairs S rest]

theorem genOffers_length (S : Streams) (l : List PairEntry) (st : St) :
    (genOffers S l st).1.length = l.length := by
  have := congrArg List.length (genOffers_pairs S l st)
  simpa using this

theorem genOffers_mem (S : Streams) :
    ∀ (l : List PairEntry) (st : St) (o : Offer), o ∈ (genOffers S l st).1 →
      ∃ t ∈ l, o.store_id = t.1 ∧ o.product_id = t.2.1 ∧
        ∃ k, o.price = round2 (t.2.2 * (0.6 + S.rand k * 0.6)) ∧
          o.amount = jsFloor (S.rand (k + 1) * 251)
  | [], _, o => by intro h; simp [genOffers] at h
  | t :: rest, st, o => by
    intro h
    unfold genOffers at h
    rcases List.mem_cons.1 h with h | h
    · subst h
      exact ⟨t, List.mem_cons_self t rest, rfl, rfl, st.r, rfl, rfl⟩
    · rcases genOffers_mem S rest _ o h with ⟨t', ht', h1, h2, k, h3, h4⟩
      exact ⟨t', List.mem_cons_of_mem t ht', h1, h2, k, h3, h4⟩

/-- Claim C4: for every random stream with values in `[0,1)`, `ean13` returns a
13-character string of decimal digits; its first 12 characters render the 12
drawn digits `Math.floor(rng() * 10)` and its 13th renders the check digit
`(10 - ((sum_odd + 3 * sum_even) % 10)) % 10`, which always lies in `[0,9]`
(also when the inner subtraction yields exactly 10, i.e. when the weighted sum
is divisible by 10). -/
theorem ean13_spec (S : Streams) (st : St)
    (hr : ∀ n, 0 ≤ S.rand n ∧ S.rand n < 1) :
    (ean13 S st).1.data
        = (eanDigitsAt S st.r ++ [eanCheck (eanDigitsAt S st.r)]).map
            (fun d => Char.ofNat (48 + d.toNat)) ∧
      (∀ d ∈ eanDigitsAt S st.r, 0 ≤ d ∧ d < 10) ∧
      eanCheck (eanDigitsAt S st.r)
        = (10 - (eanSumOdd (eanDigitsAt S st.r)
            + 3 * eanSumEven (eanDigitsAt S st.r)) % 10) % 10 ∧
      0 ≤ eanCheck (eanDigitsAt S st.r) ∧ eanCheck (eanDigitsAt S st.r) ≤ 9 ∧
      (ean13 S st).1.length = 13 ∧
      (∀ c ∈ (ean13 S st).1.data, c.isDigit) := by
  have hdig := eanDigitsAt_bounds S st.r hr
  have hck := eanCheck_bounds (eanDigitsAt S st.r)
  have hall : ∀ d ∈ eanDigitsAt S st.r ++ [eanCheck (eanDigitsAt S st.r)], 0 ≤ d ∧ d < 10 := by
    intro d hd
    rcases List.mem_append.1 hd with h | h
    · exact hdig d h
    · rcases List.mem_singleton.1 h with rfl
      exact ⟨hck.1, by omega⟩
  have hdata : (ean13 S st).1.data
      = (eanDigitsAt S st.r ++ [eanCheck (eanDigitsAt S st.r)]).map
          (fun d => Char.ofNat (48 + d.toNat)) := by
    show (String.join ((eanDigitsAt S st.r ++ [eanCheck (eanDigitsAt S st.r)]).map
        fun d => toString d)).data = _
    rw [string_join_data, digit_list_data _ hall]
  refine ⟨hdata, hdig, rfl, hck.1, hck.2, ?_, ?_⟩
  · have : (ean13 S st).1.length = (ean13 S st).1.data.length := rfl
    rw [this, hdata, List.length_map, List.length_append]
    have : (eanDigitsAt S st.r).length = 12 := by
      simp [eanDigitsAt]
    simp [this]
  · intro c hc
    rw [hdata] at hc
    rcases List.mem_map.1 hc with ⟨d, hd, rfl⟩
    have := hall d hd
    exact int_digit_isDigit this.1 this.2

/-- Claim C4 witness: the all-zero stream satisfies the `[0,1)` contract and
realises the edge case where the inner subtraction yields exactly 10 (all
digits 0), so the check digit is 0. -/
theorem ean13_spec_witness :
    (∀ n, 0 ≤ zeroStreams.rand n ∧ zeroStreams.rand n < 1) ∧
      ((ean13 zeroStreams ⟨0, 0, 0⟩).1.data
          = (eanDigitsAt zeroStreams 0 ++ [eanCheck (eanDigitsAt zeroStreams 0)]).map
              (fun d => Char.ofNat (48 + d.toNat)) ∧
        (∀ d ∈ eanDigitsAt zeroStreams 0, 0 ≤ d ∧ d < 10) ∧
        eanCheck (eanDigitsAt zeroStreams 0)
          = (10 - (eanSumOdd (eanDigitsAt zeroStreams 0)
              + 3 * eanSumEven (eanDigitsAt zeroStreams 0)) % 10) % 10 ∧
        0 ≤ eanCheck (eanDigitsAt zeroStreams 0) ∧ eanCheck (eanDigitsAt zeroStreams 0) ≤ 9 ∧
        (ean13 zeroStreams ⟨0, 0, 0⟩).1.length = 13 ∧
        (∀ c ∈ (ean13 zeroStreams ⟨0, 0, 0⟩).1.data, c.isDigit)) ∧
      (ean13 zeroStreams ⟨0, 0, 0⟩).1 = "0000000000000" :=
  ⟨fun _ => by norm_num [zeroStreams],
   ean13_spec zeroStreams ⟨0, 0, 0⟩ (fun _ => by norm_num [zeroStreams]),
   by decide⟩

theorem wStreams_rand_bounds : ∀ n, 0 ≤ wStreams.rand n ∧ wStreams.rand n < 1 := by
  intro n
  show 0 ≤ ((n % 10 : ℕ) : ℚ) / 10 ∧ ((n % 10 : ℕ) : ℚ) / 10 < 1
  constructor
  · positivity
  · rw [div_lt_one (by norm_num)]
    exact_mod_cast Nat.mod_lt n (by norm_num)

theorem wStreams_uuid_inj : Function.Injective wStreams.uuid := by
  intro a b hab
  have h1 : List.replicate (a + 1) 'u' = List.replicate (b + 1) 'u' :=
    congrArg String.data hab
  have h2 := congrArg List.length h1
  simpa using h2

/-- Claim C1: for every completed `generateData` run (random values in `[0,1)`,
pairwise-distinct uuids), every product's `category_id` is the id of some
generated category, every offer's `(store_id, product_id)` pair references a
generated store and product, and no two offers share the same pair. -/
theorem generateData_integrity (S : Streams) (fuel nc np ns nf : ℕ) (st : St) (res : GenResult)
    (hr : ∀ n, 0 ≤ S.rand n ∧ S.rand n < 1)
    (hu : Function.Injective S.uuid)
    (h : generateData S fuel nc np ns nf st = .ok (some res)) :
    (∀ p ∈ res.data.products, ∃ c ∈ res.data.categories, p.category_id = c.id) ∧
    (∀ o ∈ res.data.offers,
      (∃ s ∈ res.data.stores, o.store_id = s.id) ∧
      (∃ p ∈ res.data.products, o.product_id = p.id)) ∧
    (res.data.offers.map pairOf).Nodup := by
  rcases generateData_some_elim h with
    ⟨hcfg, cats, st1, prods, fb, st2, stores, st3, hcats, hprods, hstores,
     hrc, hrp, hrs, hrfb, hwz, hoff⟩
  have hcatlen : cats.length = nc := by
    have := (genCats_spec S nc fuel [] st cats st1 hcats).2.1
    simpa using this
  -- (a) every product references a generated category
  have hpart1 : ∀ p ∈ prods, ∃ c ∈ cats, p.category_id = c.id := by
    by_cases hnp : np = 0
    · have hlen : prods.length = 0 := by
        have := (genProds_spec S cats fuel np [] 0 st1 prods fb st2 hprods).2.1
        simpa [hnp] using this
      intro p hp
      rw [List.length_eq_zero.1 hlen] at hp
      exact absurd hp (List.not_mem_nil p)
    · have hnc : cats.length ≠ 0 := by
        rw [hcatlen]
        omega
      exact (genProds_cat_mem S cats fuel hr hnc np [] 0 st1 prods fb st2 hprods
        (fun p hp => absurd hp (List.not_mem_nil p))).1
  -- id nodups for the offer pairs
  have hpnodup : (prods.map Product.id).Nodup :=
    (genProds_ids_nodup S cats fuel hu np [] 0 st1 prods fb st2 hprods (by simp)
      (fun p hp => absurd hp (List.not_mem_nil p))).1
  have hsnodup : (stores.map Store.id).Nodup :=
    (genStores_ids_nodup S ns hu fuel [] st2 stores st3 hstores (by simp)
      (fun s hs => absurd hs (List.not_mem_nil s))).1
  refine ⟨by rw [hrp, hrc]; exact hpart1, ?_, ?_⟩
  all_goals
    rcases hoff _ rfl with ⟨hoff1, hoff2⟩
  all_goals
    by_cases hg : (if (ns = 0 ∨ np = 0) ∧ nf > 0 then 0 else nf) > 0 ∧
      stores.length ≠ 0 ∧ prods.length ≠ 0
  case pos =>
    have hofeq := hoff1 hg
    intro o ho
    rw [hofeq] at ho
    rcases genOffers_mem S _ _ o ho with ⟨t, ht, hsid, hpid, _⟩
    have htp : t ∈ allPairsOf stores prods :=
      (fyLoop_perm S _ _ _).mem_iff.1 (List.mem_of_mem_take ht)
    rcases allPairsOf_mem.1 htp with ⟨s, hsmem, p, hpmem, rfl⟩
    constructor
    · rw [hrs]
      exact ⟨s, hsmem, hsid⟩
    · rw [hrp]
      exact ⟨p, hpmem, hpid⟩
  case neg =>
    have hofeq := hoff2 hg
    intro o ho
    rw [hofeq] at ho
    exact absurd ho (List.not_mem_nil o)
  case pos =>
    have hofeq := hoff1 hg
    rw [hofeq, genOffers_pairs, List.map_take]
    refine List.Nodup.sublist (List.take_sublist _ _) ?_
    have hperm := (fyLoop_perm S ((allPairsOf stores prods).length - 1)
      (allPairsOf stores prods) st3).map fun t => (t.1, t.2.1)
    exact hperm.nodup_iff.2 (allPairsOf_pairs_nodup stores prods hsnodup hpnodup)
  case neg =>
    have hofeq := hoff2 hg
    rw [hofeq]
    simp

/-- Claim C2: for every completed `generateData` run, the number of offers is
`min (requested n_offers) (n_stores * n_products)`; in particular it is 0
whenever `n_stores = 0` or `n_products = 0`, whatever `n_offers` was. -/
theorem generateData_offers_count (S : Streams) (fuel nc np ns nf : ℕ) (st : St)
    (res : GenResult)
    (h : generateData S fuel nc np ns nf st = .ok (some res)) :
    res.data.offers.length = min nf (ns * np) ∧
    (ns = 0 ∨ np = 0 → res.data.offers.length = 0) := by
  rcases generateData_some_elim h with
    ⟨hcfg, cats, st1, prods, fb, st2, stores, st3, hcats, hprods, hstores,
     hrc, hrp, hrs, hrfb, hwz, hoff⟩
  have hslen : stores.length = ns := by
    have := (genStores_spec S ns fuel [] st2 stores st3 hstores).2.1
    simpa using this
  have hplen : prods.length = np := by
    have := (genProds_spec S cats fuel np [] 0 st1 prods fb st2 hprods).2.1
    simpa using this
  have haplen : (allPairsOf stores prods).length = ns * np := by
    rw [allPairsOf_length, hslen, hplen]
  have hmain : res.data.offers.length = min nf (ns * np) := by
    rcases hoff _ rfl with ⟨hoff1, hoff2⟩
    by_cases hco : (ns = 0 ∨ np = 0) ∧ nf > 0
    · have hz : ns * np = 0 := by
        rcases hco.1 with h0 | h0 <;> simp [h0]
      rw [(hwz hco).2, hz]
      simp
    · by_cases hg : (if (ns = 0 ∨ np = 0) ∧ nf > 0 then 0 else nf) > 0 ∧
        stores.length ≠ 0 ∧ prods.length ≠ 0
      · have hofeq := hoff1 hg
        rw [if_neg hco] at hofeq
        rw [hofeq, genOffers_length, List.length_take, fyLoop_length, haplen]
        by_cases hcap : nf > ns * np
        · rw [if_pos hcap]
          omega
        · rw [if_neg hcap]
      · have hofeq := hoff2 hg
        rw [hofeq]
        rw [if_neg hco] at hg
        simp only [List.length_nil]
        by_cases hnf : nf = 0
        · simp [hnf]
        · exfalso
          apply hg
          refine ⟨by omega, ?_, ?_⟩
          · rw [hslen]
            intro h0
            exact hco ⟨Or.inl h0, by omega⟩
          · rw [hplen]
            intro h0
            exact hco ⟨Or.inr h0, by omega⟩
  refine ⟨hmain, ?_⟩
  intro h0
  rw [hmain]
  rcases h0 with h0 | h0 <;> simp [h0]

/-- Claim C5: `generateData` throws exactly when `n_categories < 1` and
`n_products > 0` (no other input produces an error); requesting offers with
zero stores or zero products is non-fatal: the call completes with zero offers
and the warning signal. -/
theorem generateData_error_iff (S : Streams) (fuel nc np ns nf : ℕ) (st : St) :
    ((∃ e, generateData S fuel nc np ns nf st = .error e) ↔ nc < 1 ∧ np > 0) ∧
    (∀ res, generateData S fuel nc np ns nf st = .ok (some res) →
      (ns = 0 ∨ np = 0) ∧ nf > 0 →
      res.data.offers = [] ∧ offersZeroWarn ∈ res.warnings) := by
  constructor
  · constructor
    · rintro ⟨e, he⟩
      by_contra hcond
      unfold generateData at he
      rw [if_neg hcond] at he
      by_cases hco : (ns = 0 ∨ np = 0) ∧ nf > 0
      case pos =>
        simp only [if_pos hco] at he
        split at he
        · exact absurd he (by simp)
        · split at he
          · exact absurd he (by simp)
          · split at he
            · exact absurd he (by simp)
            · split at he <;> exact absurd he (by simp)
      case neg =>
        simp only [if_neg hco] at he
        split at he
        · exact absurd he (by simp)
        · split at he
          · exact absurd he (by simp)
          · split at he
            · exact absurd he (by simp)
            · split at he <;> exact absurd he (by simp)
    · intro hcond
      refine ⟨configErrMsg, ?_⟩
      unfold generateData
      rw [if_pos hcond]
  · intro res h hco
    rcases generateData_some_elim h with
      ⟨hcfg, cats, st1, prods, fb, st2, stores, st3, hcats, hprods, hstores,
       hrc, hrp, hrs, hrfb, hwz, hoff⟩
    rcases hwz hco with ⟨hw, ho⟩
    rw [hw, ho]
    exact ⟨rfl, List.mem_singleton_self _⟩

/-- Claim C7: for every completed `generateData` run with random values in
`[0,1)`, each offer's price is the referenced product's retail price times a
factor `0.6 + rng() * 0.6 ∈ [0.6, 1.2]`, rounded to 2 decimals, and its amount
is an integer in `[0, 250]`. -/
theorem generateData_offer_pricing (S : Streams) (fuel nc np ns nf : ℕ) (st : St)
    (res : GenResult)
    (hr : ∀ n, 0 ≤ S.rand n ∧ S.rand n < 1)
    (h : generateData S fuel nc np ns nf st = .ok (some res)) :
    ∀ o ∈ res.data.offers,
      (∃ p ∈ res.data.products, o.product_id = p.id ∧
        ∃ q : ℚ, 0 ≤ q ∧ q < 1 ∧
          o.price = round2 (p.retailPrice * (0.6 + q * 0.6)) ∧
          (3 : ℚ)/5 ≤ 0.6 + q * 0.6 ∧ 0.6 + q * 0.6 ≤ (6 : ℚ)/5) ∧
      0 ≤ o.amount ∧ o.amount ≤ 250 := by
  rcases generateData_some_elim h with
    ⟨hcfg, cats, st1, prods, fb, st2, stores, st3, hcats, hprods, hstores,
     hrc, hrp, hrs, hrfb, hwz, hoff⟩
  rcases hoff _ rfl with ⟨hoff1, hoff2⟩
  intro o ho
  by_cases hg : (if (ns = 0 ∨ np = 0) ∧ nf > 0 then 0 else nf) > 0 ∧
      stores.length ≠ 0 ∧ prods.length ≠ 0
  case neg =>
    rw [hoff2 hg] at ho
    exact absurd ho (List.not_mem_nil o)
  case pos =>
    rw [hoff1 hg] at ho
    rcases genOffers_mem S _ _ o ho with ⟨t, ht, hsid, hpid, k, hprice, hamount⟩
    have htp : t ∈ allPairsOf stores prods :=
      (fyLoop_perm S _ _ _).mem_iff.1 (List.mem_of_mem_take ht)
    rcases allPairsOf_mem.1 htp with ⟨s, hsmem, p, hpmem, rfl⟩
    constructor
    · rw [hrp]
      refine ⟨p, hpmem, hpid, S.rand k, (hr k).1, (hr k).2, hprice, ?_, ?_⟩
      · have := (hr k).1
        nlinarith [this]
      · have := (hr k).2
        nlinarith [this]
    · rw [hamount]
      have hb := jsFloor_pos_scale (show 0 < 251 by norm_num) (hr (k + 1)).1 (hr (k + 1)).2
      have hcast : (((251 : ℕ) : ℚ)) = (251 : ℚ) := by norm_num
      rw [hcast] at hb
      refine ⟨hb.1, ?_⟩
      have h2 := hb.2
      omega

/-- Claim C9: once the configuration check has passed, the
`cat ? cat.id : uuidv7()` fallback that would mint a fresh uuid as a product's
category reference never runs: every product-loop iteration picks an existing
category (the random pick index is always in range for values in `[0,1)`). -/
theorem generateData_no_fallback (S : Streams) (fuel nc np ns nf : ℕ) (st : St)
    (res : GenResult)
    (hr : ∀ n, 0 ≤ S.rand n ∧ S.rand n < 1)
    (h : generateData S fuel nc np ns nf st = .ok (some res)) :
    res.fallbackUsed = 0 := by
  rcases generateData_some_elim h with
    ⟨hcfg, cats, st1, prods, fb, st2, stores, st3, hcats, hprods, hstores,
     hrc, hrp, hrs, hrfb, hwz, hoff⟩
  rw [hrfb]
  by_cases hnp : np = 0
  · subst hnp
    simp only [genProds, Option.some.injEq, Prod.mk.injEq] at hprods
    exact hprods.2.1.symm
  · have hcatlen : cats.length = nc := by
      have := (genCats_spec S nc fuel [] st cats st1 hcats).2.1
      simpa using this
    have hnc : cats.length ≠ 0 := by
      rw [hcatlen]
      omega
    exact (genProds_cat_mem S cats fuel hr hnc np [] 0 st1 prods fb st2 hprods
      (fun p hp => absurd hp (List.not_mem_nil p))).2

/-- Claim C10: the Fisher–Yates pass permutes the enumerated cross-product of
(store, product, retailPrice) triples without altering any element (the result
is a permutation of the array for every starting state), and hence each
sampled offer's price is computed from the retail price of the very product
whose id appears in that offer's pair. -/
theorem fisher_yates_preserves (S : Streams) (fuel nc np ns nf : ℕ) (st : St)
    (res : GenResult)
    (hu : Function.Injective S.uuid)
    (h : generateData S fuel nc np ns nf st = .ok (some res)) :
    (∀ (i : ℕ) (st' : St),
      ((fyLoop S i (allPairsOf res.data.stores res.data.products) st').1).Perm
        (allPairsOf res.data.stores res.data.products)) ∧
    ∀ o ∈ res.data.offers, ∃ p ∈ res.data.products, o.product_id = p.id ∧
      (∃ k, o.price = round2 (p.retailPrice * (0.6 + S.rand k * 0.6))) ∧
      ∀ p' ∈ res.data.products, p'.id = o.product_id → p' = p := by
  rcases generateData_some_elim h with
    ⟨hcfg, cats, st1, prods, fb, st2, stores, st3, hcats, hprods, hstores,
     hrc, hrp, hrs, hrfb, hwz, hoff⟩
  refine ⟨fun i st' => fyLoop_perm S i _ st', ?_⟩
  have hpnodup : (prods.map Product.id).Nodup :=
    (genProds_ids_nodup S cats fuel hu np [] 0 st1 prods fb st2 hprods (by simp)
      (fun p hp => absurd hp (List.not_mem_nil p))).1
  rcases hoff _ rfl with ⟨hoff1, hoff2⟩
  intro o ho
  by_cases hg : (if (ns = 0 ∨ np = 0) ∧ nf > 0 then 0 else nf) > 0 ∧
      stores.length ≠ 0 ∧ prods.length ≠ 0
  case neg =>
    rw [hoff2 hg] at ho
    exact absurd ho (List.not_mem_nil o)
  case pos =>
    rw [hoff1 hg] at ho
    rcases genOffers_mem S _ _ o ho with ⟨t, ht, hsid, hpid, k, hprice, hamount⟩
    have htp : t ∈ allPairsOf stores prods :=
      (fyLoop_perm S _ _ _).mem_iff.1 (List.mem_of_mem_take ht)
    rcases allPairsOf_mem.1 htp with ⟨s, hsmem, p, hpmem, rfl⟩
    rw [hrp]
    refine ⟨p, hpmem, hpid, ⟨k, hprice⟩, ?_⟩
    intro p' hp' hid
    rw [hpid] at hid
    exact List.inj_on_of_nodup_map hpnodup hp' hpmem hid

set_option maxRecDepth 8000 in
theorem wRes_eval : generateData wStreams 30 1 2 1 5 ⟨0, 0, 0⟩ = .ok (some wRes) := by decide

set_option maxRecDepth 8000 in
theorem wRes2_eval : generateData wStreams 30 2 1 0 7 ⟨0, 0, 0⟩ = .ok (some wRes2) := by decide

/-- Claim C1 witness: the integrity invariants hold on the concrete run of
`generateData` on `wStreams` with counts (1, 2, 1, 5). -/
theorem generateData_integrity_witness :
    (∀ n, 0 ≤ wStreams.rand n ∧ wStreams.rand n < 1) ∧
    Function.Injective wStreams.uuid ∧
    generateData wStreams 30 1 2 1 5 ⟨0, 0, 0⟩ = .ok (some wRes) ∧
    ((∀ p ∈ wRes.data.products, ∃ c ∈ wRes.data.categories, p.category_id = c.id) ∧
     (∀ o ∈ wRes.data.offers,
       (∃ s ∈ wRes.data.stores, o.store_id = s.id) ∧
       (∃ p ∈ wRes.data.products, o.product_id = p.id)) ∧
     (wRes.data.offers.map pairOf).Nodup) :=
  ⟨wStreams_rand_bounds, wStreams_uuid_inj, wRes_eval,
   generateData_integrity wStreams 30 1 2 1 5 ⟨0, 0, 0⟩ wRes
     wStreams_rand_bounds wStreams_uuid_inj wRes_eval⟩

/-- Claim C2 witness: on the concrete run with counts (1, 2, 1, 5) the offers
array clamps to min 5 (1 × 2) = 2 entries and the capping warning is
emitted. -/
theorem generateData_offers_count_witness :
    generateData wStreams 30 1 2 1 5 ⟨0, 0, 0⟩ = .ok (some wRes) ∧
    (wRes.data.offers.length = min 5 (1 * 2) ∧
      (1 = 0 ∨ 2 = 0 → wRes.data.offers.length = 0)) ∧
    wRes.data.offers.length = 2 ∧ offersCapWarn ∈ wRes.warnings :=
  ⟨wRes_eval,
   generateData_offers_count wStreams 30 1 2 1 5 ⟨0, 0, 0⟩ wRes wRes_eval,
   by decide, by decide⟩

/-- Claim C5 witness: with 0 categories and 5 products the call errors (the
right side of the iff is discharged concretely), while 0 stores with 7
requested offers completes with zero offers and the warning signal. -/
theorem generateData_error_iff_witness :
    (((∃ e, generateData wStreams 30 0 5 1 1 ⟨0, 0, 0⟩ = .error e) ↔ 0 < 1 ∧ 5 > 0) ∧
      (0 < 1 ∧ 5 > 0)) ∧
    generateData wStreams 30 2 1 0 7 ⟨0, 0, 0⟩ = .ok (some wRes2) ∧
    wRes2.data.offers = [] ∧ offersZeroWarn ∈ wRes2.warnings :=
  ⟨⟨(generateData_error_iff wStreams 30 0 5 1 1 ⟨0, 0, 0⟩).1, by omega⟩,
   wRes2_eval,
   (generateData_error_iff wStreams 30 2 1 0 7 ⟨0, 0, 0⟩).2 wRes2 wRes2_eval
     ⟨Or.inl rfl, by omega⟩⟩

/-- Claim C7 witness: the pricing/amount bounds hold on the concrete run with
counts (1, 2, 1, 5). -/
theorem generateData_offer_pricing_witness :
    (∀ n, 0 ≤ wStreams.rand n ∧ wStreams.rand n < 1) ∧
    generateData wStreams 30 1 2 1 5 ⟨0, 0, 0⟩ = .ok (some wRes) ∧
    ∀ o ∈ wRes.data.offers,
      (∃ p ∈ wRes.data.products, o.product_id = p.id ∧
        ∃ q : ℚ, 0 ≤ q ∧ q < 1 ∧
          o.price = round2 (p.retailPrice * (0.6 + q * 0.6)) ∧
          (3 : ℚ)/5 ≤ 0.6 + q * 0.6 ∧ 0.6 + q * 0.6 ≤ (6 : ℚ)/5) ∧
      0 ≤ o.amount ∧ o.amount ≤ 250 :=
  ⟨wStreams_rand_bounds, wRes_eval,
   generateData_offer_pricing wStreams 30 1 2 1 5 ⟨0, 0, 0⟩ wRes
     wStreams_rand_bounds wRes_eval⟩

/-- Claim C9 witness: the uuid-minting fallback never ran on the concrete run
with counts (1, 2, 1, 5). -/
theorem generateData_no_fallback_witness :
    (∀ n, 0 ≤ wStreams.rand n ∧ wStreams.rand n < 1) ∧
    generateData wStreams 30 1 2 1 5 ⟨0, 0, 0⟩ = .ok (some wRes) ∧
    wRes.fallbackUsed = 0 :=
  ⟨wStreams_rand_bounds, wRes_eval,
   generateData_no_fallback wStreams 30 1 2 1 5 ⟨0, 0, 0⟩ wRes
     wStreams_rand_bounds wRes_eval⟩

/-- Claim C10 witness: the Fisher–Yates permutation property and the price
basis linkage hold on the concrete run with counts (1, 2, 1, 5). -/
theorem fisher_yates_preserves_witness :
    Function.Injective wStreams.uuid ∧
    generateData wStreams 30 1 2 1 5 ⟨0, 0, 0⟩ = .ok (some wRes) ∧
    ((∀ (i : ℕ) (st' : St),
      ((fyLoop wStreams i (allPairsOf wRes.data.stores wRes.data.products) st').1).Perm
        (allPairsOf wRes.data.stores wRes.data.products)) ∧
    ∀ o ∈ wRes.data.offers, ∃ p ∈ wRes.data.products, o.product_id = p.id ∧
      (∃ k, o.price = round2 (p.retailPrice * (0.6 + wStreams.rand k * 0.6))) ∧
      ∀ p' ∈ wRes.data.products, p'.id = o.product_id → p' = p) :=
  ⟨wStreams_uuid_inj, wRes_eval,
   fisher_yates_preserves wStreams 30 1 2 1 5 ⟨0, 0, 0⟩ wRes
     wStreams_uuid_inj wRes_eval⟩

/-- Claim C3 (refuting evidence): two runs whose seeded sources agree — same
`rand` stream, same faker stream — but whose uuid generator draws different
values (as the unseeded, time/crypto-based `uuidv7()` does on every new
invocation) produce different output: already the category ids differ.  So
seeding `Math.random` and faker does not make `generateData` byte-identical
across invocations. -/
theorem generateData_not_reproducible :
    uuidRunA.rand = uuidRunB.rand ∧
    uuidRunA.fake = uuidRunB.fake ∧
    generateData uuidRunA 5 1 0 0 0 ⟨0, 0, 0⟩ ≠ generateData uuidRunB 5 1 0 0 0 ⟨0, 0, 0⟩ :=
  ⟨rfl, rfl, by decide⟩

theorem genCats_const_stuck (S : Streams) (n : ℕ) (c : String)
    (hfake : ∀ k, catName (S.fake k) = c) :
    ∀ (fuel : ℕ) (acc : List Category) (st : St), acc.length < n →
      c ∈ acc.map Category.name → genCats S n fuel acc st = none := by
  intro fuel
  induction fuel with
  | zero =>
    intro acc st hlt hmem
    simp only [genCats]
    rw [if_neg (by omega)]
  | succ fuel ih =>
    intro acc st hlt hmem
    simp only [genCats, nextFake]
    rw [if_neg (by omega), hfake, if_pos hmem]
    exact ih acc _ hlt hmem

set_option maxRecDepth 20000 in
theorem catName_word : catName "word" = "word" := by decide

theorem zeroStreams_catName : ∀ k, catName (zeroStreams.fake k) = "word" :=
  fun _ => catName_word

/-- Claim C6 counterexample: `generateData` does not terminate on every input.
With a contract-conforming random source whose faker stream repeats the same
word forever, the category-uniqueness `while` loop never collects 2 distinct
names: no iteration bound suffices, so the call never returns. -/
theorem terminates_counterexample : ¬ Terminates zeroStreams 2 0 0 0 ⟨0, 0, 0⟩ := by
  rintro ⟨fuel, r, hr⟩
  have hstuck : genCats zeroStreams 2 fuel [] ⟨0, 0, 0⟩ = none := by
    cases fuel with
    | zero =>
      simp only [genCats]
      rw [if_neg (by simp)]
    | succ fuel =>
      simp only [genCats, nextFake]
      rw [if_neg (by simp), if_neg (by simp)]
      exact genCats_const_stuck zeroStreams 2 "word" zeroStreams_catName fuel _ _ (by simp)
        (by simp [zeroStreams_catName])
  unfold generateData at hr
  rw [if_neg (by simp)] at hr
  simp only [hstuck] at hr
  exact absurd hr (by simp)

theorem ean13_fst (S : Streams) (st : St) : (ean13 S st).1 = eanAt S st.r := rfl

theorem genCats_fresh (S : Streams) (n : ℕ) :
    ∀ (need : ℕ) (acc : List Category) (st : St),
      acc.length + need = n →
      (∀ i, i < need → catName (S.fake (st.f + i)) ∉ acc.map Category.name) →
      (∀ j, j < need → ∀ i, i < j →
        catName (S.fake (st.f + i)) ≠ catName (S.fake (st.f + j))) →
      ∀ fuel, need ≤ fuel →
        ∃ cats, genCats S n fuel acc st = some (cats, ⟨st.r, st.f + need, st.u + need⟩) := by
  intro need
  induction need with
  | zero =>
    intro acc st hlen _ _ fuel _
    refine ⟨acc, ?_⟩
    cases fuel with
    | zero =>
      simp only [genCats]
      rw [if_pos (by omega)]
      rfl
    | succ fuel =>
      simp only [genCats]
      rw [if_pos (by omega)]
      rfl
  | succ need ih =>
    intro acc st hlen hfresh hdist fuel hfuel
    cases fuel with
    | zero => omega
    | succ fuel =>
      simp only [genCats, nextFake, nextUuid]
      rw [if_neg (by omega)]
      have h0 : catName (S.fake st.f) ∉ acc.map Category.name := by
        have := hfresh 0 (by omega)
        rw [Nat.add_zero] at this
        exact this
      rw [if_neg h0]
      have hlen' : (acc ++ [(⟨S.uuid st.u, catName (S.fake st.f)⟩ : Category)]).length + need = n := by
        simp only [List.length_append, List.length_singleton]
        omega
      have hfresh' : ∀ i, i < need →
          catName (S.fake ((⟨st.r, st.f + 1, st.u + 1⟩ : St).f + i)) ∉
            (acc ++ [(⟨S.uuid st.u, catName (S.fake st.f)⟩ : Category)]).map Category.name := by
        intro i hi
        simp only [St_mk_f, List.map_append, List.map_cons, List.map_nil, List.mem_append,
          List.mem_singleton]
        push_neg
        rw [show st.f + 1 + i = st.f + (i + 1) from by omega]
        refine ⟨hfresh (i + 1) (by omega), ?_⟩
        have := (hdist (i + 1) (by omega) 0 (by omega)).symm
        rw [Nat.add_zero] at this
        exact this
      have hdist' : ∀ j, j < need → ∀ i, i < j →
          catName (S.fake ((⟨st.r, st.f + 1, st.u + 1⟩ : St).f + i)) ≠
            catName (S.fake ((⟨st.r, st.f + 1, st.u + 1⟩ : St).f + j)) := by
        intro j hj i hij
        simp only [St_mk_f]
        rw [show st.f + 1 + i = st.f + (i + 1) from by omega,
          show st.f + 1 + j = st.f + (j + 1) from by omega]
        exact hdist (j + 1) (by omega) (i + 1) (by omega)
      rcases ih _ ⟨st.r, st.f + 1, st.u + 1⟩ hlen' hfresh' hdist' fuel (by omega) with ⟨cats, hc⟩
      refine ⟨cats, ?_⟩
      rw [hc]
      simp only [St_mk_r, St_mk_f, St_mk_u, Option.some.injEq, Prod.mk.injEq, St.mk.injEq]
      exact ⟨trivial, trivial, by omega, by omega⟩

theorem genStores_fresh (S : Streams) (n : ℕ) :
    ∀ (need : ℕ) (acc : List Store) (st : St),
      acc.length + need = n →
      (∀ i, i < need → storeName (S.fake (st.f + 3 * i)) ∉ acc.map Store.name) →
      (∀ i, i < need →
        storeUrl (S.fake (st.f + 3 * i + 1)) (S.fake (st.f + 3 * i + 2)) ∉ acc.map Store.url) →
      (∀ j, j < need → ∀ i, i < j →
        storeName (S.fake (st.f + 3 * i)) ≠ storeName (S.fake (st.f + 3 * j))) →
      (∀ j, j < need → ∀ i, i < j →
        storeUrl (S.fake (st.f + 3 * i + 1)) (S.fake (st.f + 3 * i + 2)) ≠
          storeUrl (S.fake (st.f + 3 * j + 1)) (S.fake (st.f + 3 * j + 2))) →
      ∀ fuel, need ≤ fuel →
        ∃ stores, genStores S n fuel acc st
          = some (stores, ⟨st.r, st.f + 3 * need, st.u + need⟩) := by
  intro need
  induction need with
  | zero =>
    intro acc st hlen _ _ _ _ fuel _
    refine ⟨acc, ?_⟩
    cases fuel with
    | zero =>
      simp only [genStores]
      rw [if_pos (by omega)]
      rfl
    | succ fuel =>
      simp only [genStores]
      rw [if_pos (by omega)]
      rfl
  | succ need ih =>
    intro acc st hlen hfn hfu hdn hdu fuel hfuel
    cases fuel with
    | zero => omega
    | succ fuel =>
      simp only [genStores, nextFake, nextUuid]
      rw [if_neg (by omega)]
      have h0 : ¬(storeName (S.fake st.f) ∈ acc.map Store.name ∨
          storeUrl (S.fake (st.f + 1)) (S.fake (st.f + 1 + 1)) ∈ acc.map Store.url) := by
        push_neg
        constructor
        · have := hfn 0 (by omega)
          rw [Nat.mul_zero, Nat.add_zero] at this
          exact this
        · have := hfu 0 (by omega)
          rw [show st.f + 3 * 0 + 1 = st.f + 1 from by omega,
            show st.f + 3 * 0 + 2 = st.f + 1 + 1 from by omega] at this
          exact this
      rw [if_neg h0]
      have hlen' : (acc ++ [(⟨S.uuid st.u, storeName (S.fake st.f),
          storeUrl (S.fake (st.f + 1)) (S.fake (st.f + 1 + 1))⟩ : Store)]).length + need = n := by
        simp only [List.length_append, List.length_singleton]
        omega
      have hfn' : ∀ i, i < need →
          storeName (S.fake ((⟨st.r, st.f + 1 + 1 + 1, st.u + 1⟩ : St).f + 3 * i)) ∉
            (acc ++ [(⟨S.uuid st.u, storeName (S.fake st.f),
              storeUrl (S.fake (st.f + 1)) (S.fake (st.f + 1 + 1))⟩ : Store)]).map Store.name := by
        intro i hi
        simp only [St_mk_f, List.map_append, List.map_cons, List.map_nil, List.mem_append,
          List.mem_singleton]
        push_neg
        rw [show st.f + 1 + 1 + 1 + 3 * i = st.f + 3 * (i + 1) from by omega]
        refine ⟨hfn (i + 1) (by omega), ?_⟩
        have := (hdn (i + 1) (by omega) 0 (by omega)).symm
        rw [Nat.mul_zero, Nat.add_zero] at this
        exact this
      have hfu' : ∀ i, i < need →
          storeUrl (S.fake ((⟨st.r, st.f + 1 + 1 + 1, st.u + 1⟩ : St).f + 3 * i + 1))
              (S.fake ((⟨st.r, st.f + 1 + 1 + 1, st.u + 1⟩ : St).f + 3 * i + 2)) ∉
            (acc ++ [(⟨S.uuid st.u, storeName (S.fake st.f),
              storeUrl (S.fake (st.f + 1)) (S.fake (st.f + 1 + 1))⟩ : Store)]).map Store.url := by
        intro i hi
        simp only [St_mk_f, List.map_append, List.map_cons, List.map_nil, List.mem_append,
          List.mem_singleton]
        push_neg
        rw [show st.f + 1 + 1 + 1 + 3 * i + 1 = st.f + 3 * (i + 1) + 1 from by omega,
          show st.f + 1 + 1 + 1 + 3 * i + 2 = st.f + 3 * (i + 1) + 2 from by omega]
        refine ⟨hfu (i + 1) (by omega), ?_⟩
        have := (hdu (i + 1) (by omega) 0 (by omega)).symm
        rw [show st.f + 3 * 0 + 1 = st.f + 1 from by omega,
          show st.f + 3 * 0 + 2 = st.f + 1 + 1 from by omega] at this
        exact this
      have hdn' : ∀ j, j < need → ∀ i, i < j →
          storeName (S.fake ((⟨st.r, st.f + 1 + 1 + 1, st.u + 1⟩ : St).f + 3 * i)) ≠
            storeName (S.fake ((⟨st.r, st.f + 1 + 1 + 1, st.u + 1⟩ : St).f + 3 * j)) := by
        intro j hj i hij
        simp only [St_mk_f]
        rw [show st.f + 1 + 1 + 1 + 3 * i = st.f + 3 * (i + 1) from by omega,
          show st.f + 1 + 1 + 1 + 3 * j = st.f + 3 * (j + 1) from by omega]
        exact hdn (j + 1) (by omega) (i + 1) (by omega)
      have hdu' : ∀ j, j < need → ∀ i, i < j →
          storeUrl (S.fake ((⟨st.r, st.f + 1 + 1 + 1, st.u + 1⟩ : St).f + 3 * i + 1))
              (S.fake ((⟨st.r, st.f + 1 + 1 + 1, st.u + 1⟩ : St).f + 3 * i + 2)) ≠
            storeUrl (S.fake ((⟨st.r, st.f + 1 + 1 + 1, st.u + 1⟩ : St).f + 3 * j + 1))
              (S.fake ((⟨st.r, st.f + 1 + 1 + 1, st.u + 1⟩ : St).f + 3 * j + 2)) := by
        intro j hj i hij
        simp only [St_mk_f]
        rw [show st.f + 1 + 1 + 1 + 3 * i + 1 = st.f + 3 * (i + 1) + 1 from by omega,
          show st.f + 1 + 1 + 1 + 3 * i + 2 = st.f + 3 * (i + 1) + 2 from by omega,
          show st.f + 1 + 1 + 1 + 3 * j + 1 = st.f + 3 * (j + 1) + 1 from by omega,
          show st.f + 1 + 1 + 1 + 3 * j + 2 = st.f + 3 * (j + 1) + 2 from by omega]
        exact hdu (j + 1) (by omega) (i + 1) (by omega)
      rcases ih _ ⟨st.r, st.f + 1 + 1 + 1, st.u + 1⟩ hlen' hfn' hfu' hdn' hdu' fuel (by omega)
        with ⟨stores, hc⟩
      refine ⟨stores, ?_⟩
      rw [hc]
      simp only [St_mk_r, St_mk_f, St_mk_u, Option.some.injEq, Prod.mk.injEq, St.mk.injEq]
      exact ⟨trivial, trivial, by omega, by omega⟩

theorem genEanLoop_fresh (S : Streams) (fuel : ℕ) (used : List String) (st : St)
    (h : eanAt S st.r ∉ used) :
    genEanLoop S fuel used st = some (eanAt S st.r, ⟨st.r + 12, st.f, st.u⟩) := by
  have he : ean13 S st = (eanAt S st.r, ⟨st.r + 12, st.f, st.u⟩) := rfl
  cases fuel with
  | zero =>
    simp only [genEanLoop, he]
    rw [if_neg h]
  | succ fuel =>
    simp only [genEanLoop, he]
    rw [if_neg h]

theorem genProds_fresh (S : Streams) (cats : List Category) :
    ∀ (need : ℕ) (acc : List Product) (fb : ℕ) (st : St),
      (need ≠ 0 → cats.length ≠ 0) →
      (∀ i, i < need → eanAt S (st.r + 14 * i + 2) ∉ acc.map Product.ean) →
      (∀ j, j < need → ∀ i, i < j →
        eanAt S (st.r + 14 * i + 2) ≠ eanAt S (st.r + 14 * j + 2)) →
      ∀ fuel, ∃ prods fb2 u2,
        genProds S cats fuel need acc fb st
          = some (prods, fb2, ⟨st.r + 14 * need, st.f + 3 * need, u2⟩) := by
  intro need
  induction need with
  | zero =>
    intro acc fb st _ _ _ fuel
    exact ⟨acc, fb, st.u, rfl⟩
  | succ need ih =>
    intro acc fb st hc hfresh hdist fuel
    have hc' : ¬(cats.length = 0) := hc (by omega)
    have hEanFresh : eanAt S (st.r + 1 + 1) ∉ acc.map Product.ean := by
      have := hfresh 0 (by omega)
      rw [show st.r + 14 * 0 + 2 = st.r + 1 + 1 from by omega] at this
      exact this
    have hEeq := genEanLoop_fresh S fuel (acc.map Product.ean)
      ⟨st.r + 1 + 1, st.f + 1 + 1 + 1, st.u⟩ hEanFresh
    simp only [genProds, nextRand, nextFake, nextUuid, if_neg hc', hEeq]
    have hshift : ∀ (u' : ℕ) (newp : Product), newp.ean = eanAt S (st.r + 1 + 1) →
        (∀ i, i < need →
          eanAt S ((⟨st.r + 1 + 1 + 12, st.f + 1 + 1 + 1, u'⟩ : St).r + 14 * i + 2) ∉
            (acc ++ [newp]).map Product.ean) ∧
        (∀ j, j < need → ∀ i, i < j →
          eanAt S ((⟨st.r + 1 + 1 + 12, st.f + 1 + 1 + 1, u'⟩ : St).r + 14 * i + 2) ≠
            eanAt S ((⟨st.r + 1 + 1 + 12, st.f + 1 + 1 + 1, u'⟩ : St).r + 14 * j + 2)) := by
      intro u' newp hnewp
      constructor
      · intro i hi
        simp only [St_mk_r, List.map_append, List.map_cons, List.map_nil, List.mem_append,
          List.mem_singleton]
        push_neg
        rw [show st.r + 1 + 1 + 12 + 14 * i + 2 = st.r + 14 * (i + 1) + 2 from by omega]
        refine ⟨hfresh (i + 1) (by omega), ?_⟩
        rw [hnewp]
        have := (hdist (i + 1) (by omega) 0 (by omega)).symm
        rw [show st.r + 14 * 0 + 2 = st.r + 1 + 1 from by omega] at this
        exact this
      · intro j hj i hij
        simp only [St_mk_r]
        rw [show st.r + 1 + 1 + 12 + 14 * i + 2 = st.r + 14 * (i + 1) + 2 from by omega,
          show st.r + 1 + 1 + 12 + 14 * j + 2 = st.r + 14 * (j + 1) + 2 from by omega]
        exact hdist (j + 1) (by omega) (i + 1) (by omega)
    cases hopt : listGetJS cats (jsFloor (S.rand st.r * (cats.length : ℚ))) with
    | some cat =>
      simp only [hopt]
      have hsh := hshift (st.u + 1)
        ⟨S.uuid st.u, cat.id, eanAt S (st.r + 1 + 1),
          productName (S.fake st.f) (S.fake (st.f + 1)) (S.fake (st.f + 1 + 1)),
          round2 (2.5 + S.rand (st.r + 1) * (999.99 - 2.5))⟩ rfl
      rcases ih _ fb ⟨st.r + 1 + 1 + 12, st.f + 1 + 1 + 1, st.u + 1⟩
        (fun _ => hc') hsh.1 hsh.2 fuel with ⟨prods, fb2, u2, hp⟩
      refine ⟨prods, fb2, u2, ?_⟩
      rw [hp]
      simp only [St_mk_r, St_mk_f, St_mk_u, Option.some.injEq, Prod.mk.injEq, St.mk.injEq]
      exact ⟨trivial, trivial, by omega, by omega, trivial⟩
    | none =>
      simp only [hopt]
      have hsh := hshift (st.u + 1 + 1)
        ⟨S.uuid st.u, S.uuid (st.u + 1), eanAt S (st.r + 1 + 1),
          productName (S.fake st.f) (S.fake (st.f + 1)) (S.fake (st.f + 1 + 1)),
          round2 (2.5 + S.rand (st.r + 1) * (999.99 - 2.5))⟩ rfl
      rcases ih _ (fb + 1) ⟨st.r + 1 + 1 + 12, st.f + 1 + 1 + 1, st.u + 1 + 1⟩
        (fun _ => hc') hsh.1 hsh.2 fuel with ⟨prods, fb2, u2, hp⟩
      refine ⟨prods, fb2, u2, ?_⟩
      rw [hp]
      simp only [St_mk_r, St_mk_f, St_mk_u, Option.some.injEq, Prod.mk.injEq, St.mk.injEq]
      exact ⟨trivial, trivial, by omega, by omega, trivial⟩


/-- Claim C6 (amended): `generateData` is not guaranteed to terminate on every
input — a degenerate stream that repeats one candidate forever starves a
uniqueness-retry loop (see the counterexample) — but it terminates whenever
the streams keep supplying fresh candidates: if the `n_categories` category
name candidates, the `n_products` first-try EAN codes, and the `n_stores`
store name and url candidates the loops will draw are pairwise distinct, then
every retry succeeds at once and fuel `n_categories + n_products + n_stores`
suffices for the call to return a dataset. -/
theorem generateData_terminates_fresh (S : Streams) (nc np ns nf : ℕ)
    (hcfg : ¬(nc < 1 ∧ np > 0))
    (hcat : ∀ j, j < nc → ∀ i, i < j → catName (S.fake i) ≠ catName (S.fake j))
    (hean : ∀ j, j < np → ∀ i, i < j → eanAt S (14 * i + 2) ≠ eanAt S (14 * j + 2))
    (hsname : ∀ j, j < ns → ∀ i, i < j →
      storeName (S.fake (nc + 3 * np + 3 * i)) ≠ storeName (S.fake (nc + 3 * np + 3 * j)))
    (hsurl : ∀ j, j < ns → ∀ i, i < j →
      storeUrl (S.fake (nc + 3 * np + 3 * i + 1)) (S.fake (nc + 3 * np + 3 * i + 2)) ≠
        storeUrl (S.fake (nc + 3 * np + 3 * j + 1)) (S.fake (nc + 3 * np + 3 * j + 2))) :
    Terminates S nc np ns nf ⟨0, 0, 0⟩ := by
  obtain ⟨cats, hcats⟩ := genCats_fresh S nc nc [] ⟨0, 0, 0⟩ (by simp)
    (fun i _ => by simp)
    (fun j hj i hij => by
      simp only [St_mk_f, Nat.zero_add]
      exact hcat j hj i hij)
    (nc + np + ns) (by omega)
  simp only [St_mk_r, St_mk_f, St_mk_u, Nat.zero_add] at hcats
  have hclen : cats.length = nc := by
    have := (genCats_spec S nc (nc + np + ns) [] ⟨0, 0, 0⟩ cats _ hcats).2.1
    simpa using this
  obtain ⟨prods, fb2, u2, hprods⟩ := genProds_fresh S cats np [] 0 ⟨0, nc, nc⟩
    (fun hne => by
      rw [hclen]
      intro h0
      exact hcfg ⟨by omega, by omega⟩)
    (fun i _ => by simp)
    (fun j hj i hij => by
      simp only [St_mk_r, Nat.zero_add]
      exact hean j hj i hij)
    (nc + np + ns)
  simp only [St_mk_r, St_mk_f, St_mk_u, Nat.zero_add] at hprods
  obtain ⟨stores, hstores⟩ := genStores_fresh S ns ns [] ⟨14 * np, nc + 3 * np, u2⟩ (by simp)
    (fun i _ => by simp) (fun i _ => by simp)
    (fun j hj i hij => by
      simp only [St_mk_f]
      exact hsname j hj i hij)
    (fun j hj i hij => by
      simp only [St_mk_f]
      exact hsurl j hj i hij)
    (nc + np + ns) (by omega)
  have hmain : ∃ r, generateData S (nc + np + ns) nc np ns nf ⟨0, 0, 0⟩ = .ok (some r) := by
    unfold generateData
    rw [if_neg hcfg]
    by_cases hco : (ns = 0 ∨ np = 0) ∧ nf > 0
    case pos =>
      simp only [if_pos hco, hcats, hprods, hstores]
      rw [if_neg (by simp)]
      exact ⟨_, rfl⟩
    case neg =>
      simp only [if_neg hco, hcats, hprods, hstores]
      by_cases hg : nf > 0 ∧ stores.length ≠ 0 ∧ prods.length ≠ 0
      · rw [if_pos hg]
        exact ⟨_, rfl⟩
      · rw [if_neg hg]
        exact ⟨_, rfl⟩
  rcases hmain with ⟨r, hr⟩
  exact ⟨nc + np + ns, r, hr⟩

set_option maxRecDepth 20000 in
/-- Claim C6 (amended) witness: on `wStreams` the first two category
candidates are distinct and the remaining freshness conditions are about
single draws, so `generateData` with counts (2, 1, 1, 0) terminates. -/
theorem generateData_terminates_fresh_witness :
    (¬((2 : ℕ) < 1 ∧ (1 : ℕ) > 0)) ∧ Terminates wStreams 2 1 1 0 ⟨0, 0, 0⟩ :=
  ⟨by omega,
   generateData_terminates_fresh wStreams 2 1 1 0 (by omega)
     (by decide)
     (fun j hj i hij => absurd hij (by omega))
     (fun j hj i hij => absurd hij (by omega))
     (fun j hj i hij => absurd hij (by omega))⟩

/-! ### CSV round trip (claim C8) -/

/-- The parser consumes an unquoted special-free cell into the current cell. -/
theorem parseCSVAux_plain (cell : List Char) (hp : ∀ c ∈ cell, csvSpecial c = false) :
    ∀ (rest cur : List Char) (row : List (List Char)) (rows : List (List (List Char))),
      parseCSVAux (cell ++ rest) cur row rows false
        = parseCSVAux rest (cur ++ cell) row rows false := by
  induction cell with
  | nil => intro rest cur row rows; simp
  | cons c cs ih =>
    intro rest cur row rows
    have hc := hp c (List.mem_cons_self c cs)
    simp only [csvSpecial, Bool.or_eq_false_iff, decide_eq_false_iff_not] at hc
    simp only [List.cons_append, parseCSVAux]
    rw [if_neg hc.1.1.1, if_neg hc.1.1.2, if_neg hc.1.2, if_neg hc.2]
    rw [ih (fun d hd => hp d (List.mem_cons_of_mem c hd)) rest (cur ++ [c]) row rows]
    simp

/-- Inside quotes, the parser consumes a doubled-quote body up to the closing
quote and returns to unquoted mode with the body appended. -/
theorem parseCSVAux_quoted (cell : List Char) :
    ∀ (rest cur : List Char) (row : List (List Char)) (rows : List (List (List Char))),
      rest.head? ≠ some '\"' →
      parseCSVAux (doubleQuotes cell ++ '\"' :: rest) cur row rows true
        = parseCSVAux rest (cur ++ cell) row rows false := by
  induction cell with
  | nil =>
    intro rest cur row rows hrest
    simp only [doubleQuotes, List.nil_append, parseCSVAux]
    rw [if_pos trivial, if_neg hrest]
    simp
  | cons c cs ih =>
    intro rest cur row rows hrest
    by_cases hc : c = '\"'
    · subst hc
      have hdq : doubleQuotes ('\"' :: cs) = '\"' :: '\"' :: doubleQuotes cs := by
        simp [doubleQuotes]
      rw [hdq]
      simp only [List.cons_append, parseCSVAux]
      rw [if_pos trivial, if_pos (by simp), List.tail_cons]
      rw [ih rest (cur ++ ['\"']) row rows hrest]
      simp
    · have hdq : doubleQuotes (c :: cs) = c :: doubleQuotes cs := by
        simp [doubleQuotes, hc]
      rw [hdq]
      simp only [List.cons_append, parseCSVAux]
      rw [if_neg hc]
      rw [ih rest (cur ++ [c]) row rows hrest]
      simp

/-- The parser consumes one `escapeCSV`-rendered cell into the current cell,
provided the next character is not a quote. -/
theorem parseCSVAux_escape (cell rest cur : List Char) (row : List (List Char))
    (rows : List (List (List Char))) (hrest : rest.head? ≠ some '\"') :
    parseCSVAux (escapeCSV cell ++ rest) cur row rows false
      = parseCSVAux rest (cur ++ cell) row rows false := by
  by_cases hany : cell.any csvSpecial = true
  · simp only [escapeCSV]
    rw [if_pos hany]
    simp only [List.cons_append, List.append_assoc, List.singleton_append]
    simp only [parseCSVAux]
    rw [if_pos trivial]
    exact parseCSVAux_quoted cell rest cur row rows hrest
  · simp only [escapeCSV]
    rw [if_neg hany]
    have hp : ∀ c ∈ cell, csvSpecial c = false := by
      intro c hcmem
      cases h : csvSpecial c with
      | false => rfl
      | true => exact absurd (List.any_eq_true.2 ⟨c, hcmem, h⟩) hany
    exact parseCSVAux_plain cell hp rest cur row rows

/-- Unquoted comma: the current cell is pushed onto the current row. -/
theorem parseCSVAux_comma (t cur : List Char) (row : List (List Char))
    (rows : List (List (List Char))) :
    parseCSVAux (',' :: t) cur row rows false = parseCSVAux t [] (row ++ [cur]) rows false := by
  simp [parseCSVAux]

/-- Unquoted LF: the current row (with its pending cell) is emitted. -/
theorem parseCSVAux_newline (t cur : List Char) (row : List (List Char))
    (rows : List (List (List Char))) :
    parseCSVAux ('\n' :: t) cur row rows false
      = parseCSVAux t [] [] (rows ++ [row ++ [cur]]) false := by
  simp [parseCSVAux]

/-- The parser consumes one escaped data line plus its terminating newline,
emitting the cells as one parsed row. -/
theorem parseCSVAux_line : ∀ (cells : List (List Char)), cells ≠ [] →
    ∀ (rest : List Char) (row : List (List Char)) (rows : List (List (List Char))),
      parseCSVAux (csvLine cells ++ '\n' :: rest) [] row rows false
        = parseCSVAux rest [] [] (rows ++ [row ++ cells]) false := by
  intro cells
  induction cells with
  | nil => intro h; exact absurd rfl h
  | cons c cs ih =>
    intro _ rest row rows
    cases cs with
    | nil =>
      have hcl : csvLine [c] = escapeCSV c := rfl
      rw [hcl, parseCSVAux_escape c ('\n' :: rest) [] row rows (by simp)]
      rw [List.nil_append, parseCSVAux_newline]
    | cons c2 cs2 =>
      have hcl : csvLine (c :: c2 :: cs2) = escapeCSV c ++ ',' :: csvLine (c2 :: cs2) := by
        simp [csvLine, joinSep]
      rw [hcl]
      simp only [List.append_assoc, List.cons_append]
      rw [parseCSVAux_escape c _ [] row rows (by simp)]
      rw [List.nil_append, parseCSVAux_comma]
      rw [ih (List.cons_ne_nil c2 cs2) rest (row ++ [c]) rows]
      simp

/-- The parser consumes the raw (unescaped) header line plus its newline,
emitting the header cells as one parsed row. -/
theorem parseCSVAux_headerLine : ∀ (cells : List (List Char)), cells ≠ [] →
    (∀ x ∈ cells, ∀ c ∈ x, csvSpecial c = false) →
    ∀ (rest : List Char) (row : List (List Char)) (rows : List (List (List Char))),
      parseCSVAux (joinSep [','] cells ++ '\n' :: rest) [] row rows false
        = parseCSVAux rest [] [] (rows ++ [row ++ cells]) false := by
  intro cells
  induction cells with
  | nil => intro h; exact absurd rfl h
  | cons c cs ih =>
    intro _ hpl rest row rows
    have hpc : ∀ d ∈ c, csvSpecial d = false := hpl c (List.mem_cons_self c cs)
    cases cs with
    | nil =>
      have hcl : joinSep [','] [c] = c := rfl
      rw [hcl, parseCSVAux_plain c hpc ('\n' :: rest) [] row rows]
      rw [List.nil_append, parseCSVAux_newline]
    | cons c2 cs2 =>
      have hcl : joinSep [','] (c :: c2 :: cs2) = c ++ ',' :: joinSep [','] (c2 :: cs2) := by
        simp [joinSep]
      rw [hcl]
      simp only [List.append_assoc, List.cons_append]
      rw [parseCSVAux_plain c hpc _ [] row rows]
      rw [List.nil_append, parseCSVAux_comma]
      rw [ih (List.cons_ne_nil c2 cs2) (fun x hx => hpl x (List.mem_cons_of_mem c hx))
        rest (row ++ [c]) rows]
      simp

/-- The parser consumes the block of escaped data lines (each with a trailing
newline), appending the rows in order. -/
theorem parseCSVAux_lines : ∀ (rs : List (List (List Char))), rs ≠ [] → (∀ r ∈ rs, r ≠ []) →
    ∀ (acc : List (List (List Char))),
      parseCSVAux (joinSep ['\n'] (rs.map csvLine) ++ ['\n']) [] [] acc false = acc ++ rs := by
  intro rs
  induction rs with
  | nil => intro h; exact absurd rfl h
  | cons r rs2 ih =>
    intro _ hne acc
    cases rs2 with
    | nil =>
      have h1 : joinSep ['\n'] ((r :: []).map csvLine) = csvLine r := rfl
      have h2 : csvLine r ++ ['\n'] = csvLine r ++ '\n' :: ([] : List Char) := rfl
      rw [h1, h2, parseCSVAux_line r (hne r (by simp)) [] [] acc]
      simp [parseCSVAux]
    | cons r2 rs3 =>
      have h1 : joinSep ['\n'] ((r :: r2 :: rs3).map csvLine)
          = csvLine r ++ '\n' :: joinSep ['\n'] ((r2 :: rs3).map csvLine) := by
        simp [joinSep]
      rw [h1]
      simp only [List.append_assoc, List.cons_append]
      rw [parseCSVAux_line r (hne r (by simp)) _ [] acc]
      simp only [List.nil_append]
      rw [ih (by simp) (fun x hx => hne x (List.mem_cons_of_mem r hx)) (acc ++ [r])]
      simp

/-- `parseCSV` is the character loop when the text is nonempty and does not
start with a BOM. -/
theorem parseCSV_eq_aux (text : List Char) (hne : text ≠ [])
    (hbom : ∀ c, text.head? = some c → c ≠ Char.ofNat 0xfeff) :
    parseCSV text = parseCSVAux text [] [] [] false := by
  cases text with
  | nil => exact absurd rfl hne
  | cons c t =>
    simp only [parseCSV]
    rw [if_neg (hbom c rfl)]

theorem head?_append_of_ne_nil (l l' : List Char) (h : l ≠ []) : (l ++ l').head? = l.head? := by
  cases l with
  | nil => exact absurd rfl h
  | cons c t => rfl

/-- A `join` headed by a nonempty cell starts with that cell's first char. -/
theorem joinSep_head? (sep x : List Char) (xs : List (List Char)) (hx : x ≠ []) :
    (joinSep sep (x :: xs)).head? = x.head? := by
  cases xs with
  | nil => rfl
  | cons y ys =>
    show ((x ++ sep) ++ joinSep sep (y :: ys)).head? = x.head?
    rw [head?_append_of_ne_nil _ _ (by simp [hx]), head?_append_of_ne_nil x sep hx]

theorem joinSep_ne_nil (sep x : List Char) (xs : List (List Char)) (hx : x ≠ []) :
    joinSep sep (x :: xs) ≠ [] := by
  intro h
  have hh := joinSep_head? sep x xs hx
  rw [h] at hh
  cases x with
  | nil => exact hx rfl
  | cons c t => simp at hh

/-- Writing `headers`/`rows` with `arrayToCSV` and parsing the text back with
`parseCSV` recovers the header row followed by the data rows, provided the
headers are plain cells and every data row is nonempty. -/
theorem parseCSV_arrayToCSV (headers : List (List Char)) (rows : List (List (List Char)))
    (hh : headers ≠ []) (hplain : ∀ x ∈ headers, plainCell x)
    (hrows : ∀ r ∈ rows, r ≠ []) :
    parseCSV (arrayToCSV headers rows) = headers :: rows := by
  obtain ⟨h1, hs, rfl⟩ : ∃ h1 hs, headers = h1 :: hs := by
    cases headers with
    | nil => exact absurd rfl hh
    | cons a b => exact ⟨a, b, rfl⟩
  obtain ⟨hne1, hchars1⟩ := hplain h1 (by simp)
  have hplains : ∀ x ∈ h1 :: hs, ∀ c ∈ x, csvSpecial c = false :=
    fun x hx c hc => ((hplain x hx).2 c hc).1
  have hhead : (arrayToCSV (h1 :: hs) rows).head? = h1.head? := by
    show ((joinSep ['\n'] (joinSep [','] (h1 :: hs) :: rows.map csvLine)) ++ ['\n']).head?
        = h1.head?
    rw [head?_append_of_ne_nil _ _ (joinSep_ne_nil _ _ _ (joinSep_ne_nil _ _ _ hne1))]
    rw [joinSep_head? _ _ _ (joinSep_ne_nil _ _ _ hne1)]
    exact joinSep_head? _ _ _ hne1
  have htext_ne : arrayToCSV (h1 :: hs) rows ≠ [] := by
    show joinSep ['\n'] (joinSep [','] (h1 :: hs) :: rows.map csvLine) ++ ['\n'] ≠ []
    simp
  have hbom : ∀ c, (arrayToCSV (h1 :: hs) rows).head? = some c → c ≠ Char.ofNat 0xfeff := by
    intro c hc
    rw [hhead] at hc
    have hmem : c ∈ h1 := by
      cases h1 with
      | nil => exact absurd rfl hne1
      | cons a t =>
        simp only [List.head?_cons, Option.some.injEq] at hc
        subst hc
        exact List.mem_cons_self a t
    exact (hchars1 c hmem).2.2
  rw [parseCSV_eq_aux _ htext_ne hbom]
  show parseCSVAux
      (joinSep ['\n'] (joinSep [','] (h1 :: hs) :: rows.map csvLine) ++ ['\n']) [] [] [] false
    = (h1 :: hs) :: rows
  cases rows with
  | nil =>
    have h1eq : joinSep ['\n']
        (joinSep [','] (h1 :: hs) :: (([] : List (List (List Char))).map csvLine))
        = joinSep [','] (h1 :: hs) := rfl
    rw [h1eq]
    have h2eq : joinSep [','] (h1 :: hs) ++ ['\n']
        = joinSep [','] (h1 :: hs) ++ '\n' :: ([] : List Char) := rfl
    rw [h2eq, parseCSVAux_headerLine (h1 :: hs) hh hplains [] [] []]
    simp [parseCSVAux]
  | cons r rs =>
    have hsplit : joinSep ['\n'] (joinSep [','] (h1 :: hs) :: (r :: rs).map csvLine)
        = joinSep [','] (h1 :: hs) ++ '\n' :: joinSep ['\n'] ((r :: rs).map csvLine) := by
      simp [joinSep]
    rw [hsplit]
    simp only [List.append_assoc, List.cons_append]
    rw [parseCSVAux_headerLine (h1 :: hs) hh hplains _ [] []]
    simp only [List.nil_append]
    rw [parseCSVAux_lines (r :: rs) (by simp) hrows [h1 :: hs]]
    simp

/-- `trim` is the identity on a whitespace-free cell. -/
theorem trimCell_plain (s : List Char) (h : ∀ c ∈ s, c.isWhitespace = false) : trimCell s = s := by
  have hdw : ∀ (l : List Char), (∀ c ∈ l, c.isWhitespace = false) →
      l.dropWhile Char.isWhitespace = l := by
    intro l hl
    cases l with
    | nil => rfl
    | cons a t =>
      rw [List.dropWhile_cons, if_neg (by simp [hl a (List.mem_cons_self a t)])]
  show ((s.dropWhile Char.isWhitespace).reverse.dropWhile Char.isWhitespace).reverse = s
  rw [hdw s h, hdw s.reverse (fun c hc => h c (List.mem_reverse.1 hc)), List.reverse_reverse]

/-- Indexing by `range` recovers `zip` when the row is as long as the header. -/
theorem rangeMap_pair_zip : ∀ (hs r : List (List Char)), r.length = hs.length →
    ((List.range hs.length).map fun i => ((hs.get? i).getD [], (r.get? i).getD [])) = hs.zip r := by
  intro hs
  induction hs with
  | nil => intro r h; simp
  | cons a t ih =>
    intro r hlen
    cases r with
    | nil => simp at hlen
    | cons b u =>
      rw [List.length_cons, List.range_succ_eq_map, List.map_cons, List.map_map]
      rw [List.zip_cons_cons]
      congr 1
      rw [← ih u (by simp only [List.length_cons] at hlen; omega)]
      exact List.map_congr_left fun i _ => rfl

/-- On a header row of plain cells followed by full-length data rows,
`rowsToObjects` pairs each header with the matching cell: the object rows are
exactly `headers.zip r`. -/
theorem rowsToObjects_zip (headers : List (List Char)) (rows : List (List (List Char)))
    (hplain : ∀ x ∈ headers, plainCell x)
    (hlen : ∀ r ∈ rows, r.length = headers.length) :
    rowsToObjects (headers :: rows) = rows.map fun r => headers.zip r := by
  have htrim : headers.map trimCell = headers := by
    conv_rhs => rw [← List.map_id headers]
    exact List.map_congr_left fun x hx =>
      trimCell_plain x fun c hc => ((hplain x hx).2 c hc).2.1
  have hobj : rowsToObjects (headers :: rows)
      = rows.map fun cells => (List.range (headers.map trimCell).length).map fun i =>
          (if ((headers.map trimCell).get? i).getD [] = []
            then "column".toList ++ (toString i).toList
            else ((headers.map trimCell).get? i).getD [],
           (cells.get? i).getD []) := rfl
  rw [hobj, htrim]
  refine List.map_congr_left ?_
  intro r hr
  rw [← rangeMap_pair_zip headers r (hlen r hr)]
  refine List.map_congr_left ?_
  intro i hi
  have hi' : i < headers.length := List.mem_range.1 hi
  rw [List.get?_eq_get hi']
  have hne : headers.get ⟨i, hi'⟩ ≠ [] := (hplain _ (List.get_mem _ _ _)).1
  simp only [Option.getD_some]
  rw [if_neg hne]

/-- Claim C8 (supporting theorem for the pure serializer/parser pair): for
every table whose headers are plain cells (the entity headers `id`, `name`,
… all are) and whose data rows all have one cell per header, serializing with
`arrayToCSV` and reading back with `parseCSV` recovers the header row and
every data row field for field, and `rowsToObjects` then rebuilds exactly the
original objects (each data row keyed by the headers). The end-to-end claim
about `readAllFromCSVs` itself fails in the source for a different reason:
`readAllFromCSVs` and `readCSVFileObjects` call `path.resolve`/`path.join`,
but `csv_writer.js` imports only the named bindings `{ resolve, join }` from
'path' and never binds `path`, so every call throws a ReferenceError before
reaching this (correct) parsing logic. -/
theorem csv_write_read_roundtrip (headers : List (List Char)) (rows : List (List (List Char)))
    (hh : headers ≠ []) (hplain : ∀ x ∈ headers, plainCell x)
    (hlen : ∀ r ∈ rows, r.length = headers.length) :
    parseCSV (arrayToCSV headers rows) = headers :: rows ∧
    rowsToObjects (parseCSV (arrayToCSV headers rows)) = rows.map fun r => headers.zip r := by
  have hrne : ∀ r ∈ rows, r ≠ [] := by
    intro r hr h0
    have hl := hlen r hr
    rw [h0] at hl
    simp only [List.length_nil] at hl
    exact hh (List.length_eq_zero.1 hl.symm)
  have h1 := parseCSV_arrayToCSV headers rows hh hplain hrne
  refine ⟨h1, ?_⟩
  rw [h1]
  exact rowsToObjects_zip headers rows hplain hlen

/-- Claim C8 witness: a two-column table whose data cells include a comma and
a quote round-trips through `arrayToCSV`/`parseCSV`/`rowsToObjects`. -/
theorem csv_write_read_roundtrip_witness :
    ((([['i', 'd'], ['n', 'm']] : List (List Char)) ≠ []) ∧
      (∀ x ∈ ([['i', 'd'], ['n', 'm']] : List (List Char)), plainCell x) ∧
      (∀ r ∈ ([[['1'], ['a', ',', 'b']], [['2'], ['s', '\"', 'x']]] :
          List (List (List Char))),
        r.length = ([['i', 'd'], ['n', 'm']] : List (List Char)).length)) ∧
    (parseCSV (arrayToCSV [['i', 'd'], ['n', 'm']]
          [[['1'], ['a', ',', 'b']], [['2'], ['s', '\"', 'x']]])
        = [['i', 'd'], ['n', 'm']] :: [[['1'], ['a', ',', 'b']], [['2'], ['s', '\"', 'x']]] ∧
      rowsToObjects (parseCSV (arrayToCSV [['i', 'd'], ['n', 'm']]
          [[['1'], ['a', ',', 'b']], [['2'], ['s', '\"', 'x']]]))
        = ([[['1'], ['a', ',', 'b']], [['2'], ['s', '\"', 'x']]] :
            List (List (List Char))).map
            fun r => ([['i', 'd'], ['n', 'm']] : List (List Char)).zip r) :=
  ⟨⟨by decide, by decide, by decide⟩,
   csv_write_read_roundtrip [['i', 'd'], ['n', 'm']]
     [[['1'], ['a', ',', 'b']], [['2'], ['s', '\"', 'x']]]
     (by decide) (by decide) (by decide)⟩

end
